import Mathlib

/-!
Verification of the alien-invasion simulator (github.com/zivkovicmilos/alien-invasion).

The development shallowly embeds the live revision of the Go sources:
  * the city occupancy protocol of src/game/alien.go
    (laySiege / addInvader / removeInvader / liftSiege),
  * the agent run loop of src/game/alien.go (runAlien),
  * the earth map of src/game/map_test.go
    (InitMap / WriteOutput / removeCity / pruneDestroyedCities / SimulateInvasion).

Go strings are modelled as lists of characters, Go maps keyed by city name as
association lists of cities with distinct names, and Go sets (map[int]struct{})
as finite sets.  Agent identifiers are the loop indices 0,1,2,... handed out by
the orchestrator, modelled as naturals.
-/

namespace AlienInvasion

/-- Go strings, modelled as lists of characters. -/
abbrev Str := List Char

/-- The four compass directions (src/game/alien.go, `direction`).  The Go type
is an `int` with four named constants; only those four values ever occur. -/
inductive direction where
  | north
  | south
  | east
  | west
deriving DecidableEq, Repr, Fintype

/-- `direction.getOpposite` from src/game/alien.go: north and south swap, east
and west swap (the Go `default` branch returns east, and west is the only value
reaching it). -/
def direction.getOpposite : direction → direction
  | .north => .south
  | .south => .north
  | .east => .west
  | .west => .east

/-- `numDirections` from src/game/alien.go. -/
def numDirections : Nat := 4

/-- `maxInvaderCount` from src/game/alien.go: at most 2 invaders at a time. -/
def maxInvaderCount : Nat := 2

/-- `maxMoveCount` from src/game/map_test.go: the fixed cap on alien moves. -/
def maxMoveCount : Nat := 10000

/-- A city (src/game/alien.go, `city`).  The Go struct stores a mutex, a name,
a `map[direction]*city` of neighbors, a logger, the `destroyed` flag and the
`invaders` and `sieges` sets.  Neighbor pointers are modelled by the name of
the pointed-to city: a city's name never changes, and every observation made
of a neighbor pointer in the embedded operations reads either its name or the
current map entry of that name. -/
structure city where
  name : Str
  neighbors : direction → Option Str
  destroyed : Bool
  invaders : Finset ℕ
  sieges : Finset ℕ

instance : DecidableEq city := fun a b =>
  decidable_of_iff
    (a.name = b.name ∧ (∀ d, a.neighbors d = b.neighbors d) ∧
      a.destroyed = b.destroyed ∧ a.invaders = b.invaders ∧ a.sieges = b.sieges)
    (by cases a; cases b; simp [funext_iff])

/-- `newCity` from src/game/alien.go: fresh name, no neighbors, not destroyed,
empty invader and siege sets. -/
def newCity (nm : Str) : city :=
  { name := nm
    neighbors := fun _ => none
    destroyed := false
    invaders := ∅
    sieges := ∅ }

/-- `city.laySiege` (src/game/alien.go lines 535-546): under the lock, fail if
two sieges are outstanding, otherwise record the siege.  Returns the updated
city and the success flag. -/
def laySiege (c : city) (id : ℕ) : city × Bool :=
  if c.sieges.card = 2 then
    (c, false)
  else
    ({ c with sieges := insert id c.sieges }, true)

/-- `city.addInvader` (src/game/alien.go lines 453-472): a no-op unless the
alien holds a siege; otherwise the alien is added to the invaders, and when
the invader count reaches `maxInvaderCount` the city is marked destroyed and
`printInvaders` logs the responsible invaders.  The second component models
that destruction observation: the set of invader ids printed. -/
def addInvader (c : city) (id : ℕ) : city × Option (Finset ℕ) :=
  if id ∈ c.sieges then
    let c1 := { c with invaders := insert id c.invaders }
    if c1.invaders.card = maxInvaderCount then
      ({ c1 with destroyed := true }, some c1.invaders)
    else
      (c1, none)
  else
    (c, none)

/-- `city.removeInvader` (src/game/alien.go lines 477-492): fails without
mutation when the city is destroyed; otherwise deletes the alien from both the
invaders and the sieges and succeeds. -/
def removeInvader (c : city) (id : ℕ) : city × Bool :=
  if c.destroyed then
    (c, false)
  else
    ({ c with invaders := c.invaders.erase id, sieges := c.sieges.erase id }, true)

/-- `city.liftSiege` (src/game/alien.go lines 549-554): delete the siege. -/
def liftSiege (c : city) (id : ℕ) : city :=
  { c with sieges := c.sieges.erase id }

/-- One reserve/occupy/vacate call on a single location, the alphabet over
which claim C1 quantifies. -/
inductive CityOp where
  | laySiege (id : ℕ)
  | addInvader (id : ℕ)
  | removeInvader (id : ℕ)
deriving DecidableEq, Repr

/-- Apply one protocol call to a city, keeping only the state (the boolean
results steer the caller, not the city). -/
def applyCityOp (c : city) : CityOp → city
  | .laySiege id => (laySiege c id).1
  | .addInvader id => (addInvader c id).1
  | .removeInvader id => (removeInvader c id).1

/-- Run a sequence of protocol calls on a city. -/
def runCityOps (c : city) (ops : List CityOp) : city :=
  ops.foldl applyCityOp c

/-- The state invariant of the occupancy protocol: invaders hold sieges, at
most two sieges are outstanding, and `destroyed` is set exactly when two
invaders are present. -/
def cityInv (c : city) : Prop :=
  c.invaders ⊆ c.sieges ∧ c.sieges.card ≤ 2 ∧ (c.destroyed = true ↔ c.invaders.card = 2)

/-! ### The earth map (src/game/map_test.go)

The Go `cityMap` is a `map[string]*city`; it is modelled as a list of cities
with pairwise distinct names, looked up by name.  Map iteration order is
unspecified in Go; the embedding fixes list order, and every claim proved over
the model is insensitive to that order. -/

/-- `EarthMap.getCity`: look a city up by name, `none` when absent. -/
def getCity : List city → Str → Option city
  | [], _ => none
  | c :: rest, nm => if c.name = nm then some c else getCity rest nm

/-- `EarthMap.addCity`: `m.cityMap[newCity.name] = newCity`, replacing any
entry of the same name. -/
def addCity : List city → city → List city
  | [], c => [c]
  | x :: rest, c => if x.name = c.name then c :: rest else x :: addCity rest c

/-- In-place mutation of the map entry of a given name, modelling a Go method
call through the pointer stored in the lookup table. -/
def updateCity : List city → Str → (city → city) → List city
  | [], _, _ => []
  | c :: rest, nm, f => if c.name = nm then f c :: rest else c :: updateCity rest nm f

/-- `delete(m.cityMap, name)`. -/
def eraseCity : List city → Str → List city
  | [], _ => []
  | c :: rest, nm => if c.name = nm then rest else c :: eraseCity rest nm

/-- `EarthMap.getOrAddCity`: ensure an entry of the given name exists,
creating a fresh city when absent. -/
def getOrAddCity (m : List city) (nm : Str) : List city :=
  match getCity m nm with
  | some _ => m
  | none => addCity m (newCity nm)

/-- `city.addNeighbor`: overwrite the neighbor slot of one direction. -/
def addNeighbor (c : city) (d : direction) (nbr : Str) : city :=
  { c with neighbors := fun e => if e = d then some nbr else c.neighbors e }

/-- `city.removeNeighbor`: clear the neighbor slot of one direction. -/
def removeNeighbor (c : city) (d : direction) : city :=
  { c with neighbors := fun e => if e = d then none else c.neighbors e }

/-- The enumeration order used for the direction-indexed loops. -/
def dirList : List direction := [.north, .south, .east, .west]

/-- The neighbor-stripping loop of `EarthMap.removeCity`: for every neighbor
link `(d, n)` of the removed city, clear slot `d.getOpposite` of the map entry
named `n`. -/
def stripFromNeighbors (c : city) (m : List city) : List city :=
  dirList.foldl
    (fun acc d =>
      match c.neighbors d with
      | none => acc
      | some nbr => updateCity acc nbr (fun x => removeNeighbor x d.getOpposite))
    m

/-- `EarthMap.removeCity` (src/game/map_test.go lines 640-661): a warning-only
no-op when the name is absent; otherwise delete the entry and strip the
reverse link from each of its neighbors. -/
def removeCity (m : List city) (nm : Str) : List city :=
  match getCity m nm with
  | none => m
  | some c => stripFromNeighbors c (eraseCity m nm)

/-- `EarthMap.pruneDestroyedCities` (src/game/map_test.go lines 846-857):
remove every destroyed city and count the removals. -/
def pruneDestroyedCities (m : List city) : List city × ℕ :=
  m.foldl (fun acc c => if c.destroyed then (removeCity acc.1 c.name, acc.2 + 1) else acc)
    (m, 0)

/-! ### Map parsing and serialization (src/game/map_test.go)

`InitMap` reads city lines and extracts the name with the anchored regex
`^[^ ]+` and each neighbor with the first match of `north=([^ ]+)` (and the
analogous south/east/west patterns). -/

/-- Literal match of a pattern at the head of a character list. -/
def matchesAt : List Char → List Char → Bool
  | [], _ => true
  | _ :: _, [] => false
  | p :: ps, c :: cs => if p = c then matchesAt ps cs else false

/-- First match of the Go regex `pat([^ ]+)` over a line, returning the
capture: scan left to right for the literal `pat` followed by a nonempty run
of non-space characters, the capture being that greedy run. -/
def findCapture (pat : Str) : Str → Option Str
  | [] => none
  | c :: cs =>
    if matchesAt pat (c :: cs) then
      let cap := ((c :: cs).drop pat.length).takeWhile (fun ch => decide (ch ≠ ' '))
      if cap = [] then findCapture pat cs else some cap
    else
      findCapture pat cs

/-- The literal part of the direction regexes of src/game/map_test.go. -/
def dirPattern : direction → Str
  | .north => ['n', 'o', 'r', 't', 'h', '=']
  | .south => ['s', 'o', 'u', 't', 'h', '=']
  | .east => ['e', 'a', 's', 't', '=']
  | .west => ['w', 'e', 's', 't', '=']

/-- What the regex layer of `InitMap` extracts from one input line: the city
name and, per direction, the first captured neighbor name, if any. -/
structure cityLine where
  name : Str
  nbrs : direction → Option Str

/-- Regex extraction for one line: `none` models the skipped (logged) invalid
line whose anchored name regex `^[^ ]+` fails to match. -/
def extractLine (s : Str) : Option cityLine :=
  let nm := s.takeWhile (fun ch => decide (ch ≠ ' '))
  if nm = [] then none
  else some ⟨nm, fun d => findCapture (dirPattern d) s⟩

/-- The body of `InitMap` for one valid line: create (and register) a fresh
city of that name, then for each direction with a parsed neighbor, fetch or
create the neighbor, give it the reverse link, and link the city to it. -/
def processLine (m : List city) (s : Str) : List city :=
  match extractLine s with
  | none => m
  | some ln =>
    let m1 := addCity m (newCity ln.name)
    dirList.foldl
      (fun acc d =>
        match ln.nbrs d with
        | none => acc
        | some tgt =>
          let a1 := getOrAddCity acc tgt
          let a2 := updateCity a1 tgt (fun x => addNeighbor x d.getOpposite ln.name)
          updateCity a2 ln.name (fun x => addNeighbor x d tgt))
      m1

/-- `EarthMap.InitMap` (src/game/map_test.go lines 569-626), starting from a
freshly constructed empty map. -/
def InitMap (lines : List Str) : List city :=
  lines.foldl processLine []

/-- The `(direction, neighborName)` pairs a city currently stores, in the
fixed direction order. -/
def cityPairs (c : city) : List (direction × Str) :=
  dirList.filterMap (fun d => (c.neighbors d).map (fun nbr => (d, nbr)))

/-- `EarthMap.WriteOutput` (src/game/map_test.go lines 681-712) at the
granularity the round-trip claim compares: one `(name, pairs)` line per city.
Textual formatting of a line is owned by the excluded serializer. -/
def WriteOutput (m : List city) : List (Str × List (direction × Str)) :=
  m.map (fun c => (c.name, cityPairs c))

/-- The `(direction, neighborName)` pairs of one extracted line. -/
def cityLinePairs (ln : cityLine) : List (direction × Str) :=
  dirList.filterMap (fun d => (ln.nbrs d).map (fun t => (d, t)))

/-- Stated from the round-trip claim's words, for comparison with the output
of `WriteOutput`: the pairs the textual input gives a location are the pairs
carried by its (valid) input lines. -/
def inputPairs (lines : List Str) (nm : Str) : List (direction × Str) :=
  (lines.filterMap extractLine).foldl
    (fun acc ln => if ln.name = nm then acc ++ cityLinePairs ln else acc) []

/-- Adjacency symmetry of the extracted input, the hypothesis under which the
round-trip holds: every `(d, tgt)` pair of a line is matched by a line named
`tgt` carrying the reverse pair. -/
def symmetricLines (L : List cityLine) : Prop :=
  ∀ ℓ ∈ L, ∀ d : direction, ∀ tgt : Str, ℓ.nbrs d = some tgt →
    ∃ ℓ', ℓ' ∈ L ∧ ℓ'.name = tgt ∧ ℓ'.nbrs d.getOpposite = some ℓ.name

instance instDecidableNbrOk (L : List cityLine) (ℓ : cityLine) (d : direction) :
    Decidable (∀ tgt : Str, ℓ.nbrs d = some tgt →
      ∃ ℓ', ℓ' ∈ L ∧ ℓ'.name = tgt ∧ ℓ'.nbrs d.getOpposite = some ℓ.name) :=
  match ℓ.nbrs d with
  | none => isTrue (fun _ ht => Option.noConfusion ht)
  | some t =>
    decidable_of_iff (∃ ℓ', ℓ' ∈ L ∧ ℓ'.name = t ∧ ℓ'.nbrs d.getOpposite = some ℓ.name)
      ⟨fun hex tgt ht => by
        cases ht
        exact hex,
       fun hall => hall t rfl⟩

instance instDecidableSymmetricLines (L : List cityLine) : Decidable (symmetricLines L) :=
  inferInstanceAs (Decidable (∀ ℓ ∈ L, ∀ d : direction, ∀ tgt : Str, ℓ.nbrs d = some tgt →
    ∃ ℓ', ℓ' ∈ L ∧ ℓ'.name = tgt ∧ ℓ'.nbrs d.getOpposite = some ℓ.name))

/-! ### Single-agent step relation (claim C8)

A run with one agent performs only that agent's protocol calls, each addressed
to one location of the map. -/

/-- One protocol call of the running agent, addressed by location name:
`laySiege`, `addInvader`, `removeInvader` and `liftSiege` are exactly the
calls `runAlien`, `siegeRandomNeighbor` and the seeding loop perform. -/
inductive AgentOp where
  | laySiege (loc : Str)
  | addInvader (loc : Str)
  | removeInvader (loc : Str)
  | liftSiege (loc : Str)
deriving DecidableEq, Repr

/-- Apply one call of agent `a` to the map. -/
def applyAgentOp (a : ℕ) (m : List city) : AgentOp → List city
  | .laySiege loc => updateCity m loc (fun c => (laySiege c a).1)
  | .addInvader loc => updateCity m loc (fun c => (addInvader c a).1)
  | .removeInvader loc => updateCity m loc (fun c => (removeInvader c a).1)
  | .liftSiege loc => updateCity m loc (fun c => liftSiege c a)

/-- The states reachable in a run generated by the single agent `a`. -/
def runAgentOps (a : ℕ) (m : List city) (ops : List AgentOp) : List city :=
  ops.foldl (applyAgentOp a) m

/-! ### The orchestrator (src/game/map_test.go, `SimulateInvasion`)

`SimulateInvasion` checks for an empty map, samples seed cities, lays a siege
and places each alien (discarding aliens whose seed siege fails), then blocks
on a wait loop that decrements `aliensLeft` once per received done signal and
returns when it hits zero, or when the caller cancels.  The random sampling
and the concurrent agent execution are oracle inputs of the model; the claims
proved about it concern only runs in which no agent acts. -/

/-- One step of the seeding loop (src/game/map_test.go lines 766-795), over
`(map, aliensLeft, started)`, fed the indexed seed `(id, name)`. -/
def seedStep (acc : List city × ℤ × ℕ) (p : ℕ × Str) : List city × ℤ × ℕ :=
  match getCity acc.1 p.2 with
  | none => acc
  | some c =>
    let r := laySiege c p.1
    if r.2 then
      (updateCity acc.1 p.2 (fun _ => (addInvader r.1 p.1).1), acc.2.1, acc.2.2 + 1)
    else
      (acc.1, acc.2.1 - 1, acc.2.2)

/-- The whole seeding loop: aliens are numbered by their index, `aliensLeft`
starts at the alien count and is decremented for every discarded alien,
`started` counts the spawned run loops. -/
def seedAliens (m : List city) (numAliens : ℕ) (seeds : List Str) :
    List city × ℤ × ℕ :=
  seeds.enum.foldl seedStep (m, (numAliens : ℤ), 0)

/-- The orchestrator wait loop (src/game/map_test.go lines 798-814) fed
`signals` done notifications: each receive decrements `aliensLeft` (a Go
`int`) and the loop returns normally only when the count hits exactly zero;
with no signal left to receive it blocks.  Returns whether the loop returns
without external cancellation. -/
def waitLoopReturns : ℤ → ℕ → Bool
  | _, 0 => false
  | left, s + 1 => if left - 1 = 0 then true else waitLoopReturns (left - 1) s

/-- The observable shape of a `SimulateInvasion` call up to its wait loop. -/
structure SimOutcome where
  early : Bool
  map : List city
  started : ℕ
  aliensLeft : ℤ

/-- `EarthMap.SimulateInvasion` (src/game/map_test.go lines 723-815) up to the
wait loop: the empty-map precondition check returns before the pruning defer
is installed; otherwise the seeding loop runs on the sampled seed names.  The
wait phase is queried through `waitLoopReturns` on the resulting
`aliensLeft`. -/
def SimulateInvasion (m : List city) (numAliens : ℕ) (seeds : List Str) : SimOutcome :=
  if m.length = 0 then
    ⟨true, m, 0, (numAliens : ℤ)⟩
  else
    let r := seedAliens m numAliens seeds
    ⟨false, r.1, r.2.2, r.2.1⟩

/-! ### The agent run loop (src/game/alien.go, `runAlien`)

Each iteration of `runAlien` either observes cancellation, fails to siege any
neighbor (the alien is trapped and dies), sieges a neighbor but cannot leave a
destroyed current city (it lifts the siege and dies), or moves.  Which branch
runs depends on the scheduler, the random choices and the other agents; an
oracle list of iteration outcomes resolves that nondeterminism.  The failed
siege retries inside `siegeRandomNeighbor` mutate nothing and precede every
exit, so they carry no event of their own. -/

/-- Oracle outcome of one `runAlien` loop iteration. -/
inductive IterOutcome where
  | cancelled
  | trapped
  | vacateFailed
  | moved
deriving DecidableEq, Repr

/-- Events an iteration contributes: protocol calls on some location, and the
done notification sent on the agent's channel. -/
inductive AlienEvent where
  | laySiegeOp
  | removeInvaderOp
  | addInvaderOp
  | liftSiegeOp
  | notifyDone
deriving DecidableEq, Repr

/-- The `runAlien` loop (src/game/alien.go lines 22-73) driven by the oracle:
returns the final move count, whether a done notification was sent, and the
event trace.  A successful move lays siege to the neighbor, vacates the
current city, invades the neighbor and increments the counter, and the loop
returns with a notification as soon as the counter reaches `maxMoveCount`; an
exhausted oracle models an agent still running. -/
def runAlienLoop (mc : ℕ) : List IterOutcome → ℕ × Bool × List AlienEvent
  | [] => (mc, false, [])
  | o :: rest =>
    match o with
    | .cancelled => (mc, false, [])
    | .trapped => (mc, true, [.notifyDone])
    | .vacateFailed =>
      (mc, true, [.laySiegeOp, .removeInvaderOp, .liftSiegeOp, .notifyDone])
    | .moved =>
      let evs : List AlienEvent := [.laySiegeOp, .removeInvaderOp, .addInvaderOp]
      if mc + 1 ≥ maxMoveCount then
        (mc + 1, true, evs ++ [.notifyDone])
      else
        let r := runAlienLoop (mc + 1) rest
        (r.1, r.2.1, evs ++ r.2.2)

/-- The state invariant of a run generated by the lone agent `a`: nothing is
destroyed and only `a` can appear in any invader or siege set. -/
def singleAgentInv (a : ℕ) (c : city) : Prop :=
  c.destroyed = false ∧ c.invaders ⊆ {a} ∧ c.sieges ⊆ {a}

/-- The names present in the map after `InitMap` has consumed the extracted
lines of `P`: each processed line's own name and every target it mentions. -/
def parsedKeys (P : List cityLine) (nm : Str) : Prop :=
  (∃ ℓ ∈ P, ℓ.name = nm) ∨ ∃ ℓ ∈ P, ∃ d, ℓ.nbrs d = some nm

/-- Invariant of the `InitMap` fold over a symmetric input, `P` being the
extracted lines already consumed: the keys are exactly `parsedKeys P`, keys
are distinct, and the entry of each consumed line holds exactly that line's
neighbor slots. -/
def lineInv (P : List cityLine) (m : List city) : Prop :=
  (∀ nm, (∃ x, getCity m nm = some x) ↔ parsedKeys P nm) ∧
  (m.map city.name).Nodup ∧
  (∀ ℓ ∈ P, ∀ x, getCity m ℓ.name = some x → ∀ d, x.neighbors d = ℓ.nbrs d)

/-- Invariant holding midway through one line of `InitMap`: the lines of `P`
are fully consumed, the fresh city for line `ℓ` is registered, and the
directions in `done` have been linked; the slots of `ℓ`'s entry never hold
anything its line does not prescribe. -/
def midInv (P : List cityLine) (ℓ : cityLine) (done : List direction)
    (m : List city) : Prop :=
  (∀ nm, (∃ x, getCity m nm = some x) ↔
    (parsedKeys P nm ∨ nm = ℓ.name ∨ ∃ d ∈ done, ℓ.nbrs d = some nm)) ∧
  (m.map city.name).Nodup ∧
  (∀ ℓ' ∈ P, ∀ x, getCity m ℓ'.name = some x → ∀ d, x.neighbors d = ℓ'.nbrs d) ∧
  (∀ x, getCity m ℓ.name = some x →
    (∀ d ∈ done, x.neighbors d = ℓ.nbrs d) ∧
    (∀ d t, x.neighbors d = some t → ℓ.nbrs d = some t))

/-! ### Concrete inputs used by the witnesses and counterexamples -/

/-- A city with one pending siege by agent 1. -/
def siegedCity : city :=
  { name := ['A']
    neighbors := fun _ => none
    destroyed := false
    invaders := ∅
    sieges := {1} }

/-- A destroyed city holding its two dead occupants. -/
def deadCity : city :=
  { name := ['A']
    neighbors := fun _ => none
    destroyed := true
    invaders := {1, 2}
    sieges := {1, 2} }

/-- A destroyed, occupied city with one outstanding siege: reservation slots
are judged only by the siege set. -/
def wreckedCity : city :=
  { name := ['A']
    neighbors := fun _ => none
    destroyed := true
    invaders := {5, 6}
    sieges := {9} }

/-- A city occupied (and still reserved) by agent 1. -/
def occupiedCity : city :=
  { name := ['A']
    neighbors := fun _ => none
    destroyed := false
    invaders := {1}
    sieges := {1} }

/-- A destroyed city `F` linked north to `B`. -/
def doomedF : city :=
  { name := ['F']
    neighbors := fun d => if d = .north then some ['B'] else none
    destroyed := true
    invaders := {0, 1}
    sieges := {0, 1} }

/-- A surviving city `B` linked south to `F`. -/
def survivorB : city :=
  { name := ['B']
    neighbors := fun d => if d = .south then some ['F'] else none
    destroyed := false
    invaders := ∅
    sieges := ∅ }

/-- A two-city map with one destroyed member, exercising the pruning. -/
def pruneDemo : List city := [doomedF, survivorB]

/-- The line `A north=B`. -/
def asymLine : Str := ['A', ' ', 'n', 'o', 'r', 't', 'h', '=', 'B']

/-- The symmetric two-line input `Foo north=Bar` / `Bar south=Foo`. -/
def demoLines : List Str :=
  [['F', 'o', 'o', ' ', 'n', 'o', 'r', 't', 'h', '=', 'B', 'a', 'r'],
   ['B', 'a', 'r', ' ', 's', 'o', 'u', 't', 'h', '=', 'F', 'o', 'o']]

end AlienInvasion

namespace AlienInvasion

theorem cityInv_newCity (nm : Str) : cityInv (newCity nm) := by
  refine ⟨by simp [newCity], by simp [newCity], by simp [newCity]⟩

theorem destroyed_applyCityOp_mono (c : city) (op : CityOp) (h : c.destroyed = true) :
    (applyCityOp c op).destroyed = true := by
  cases op with
  | laySiege id =>
    simp only [applyCityOp, laySiege]
    split <;> simp [h]
  | addInvader id =>
    simp only [applyCityOp, addInvader]
    split
    · split <;> simp [h]
    · exact h
  | removeInvader id =>
    simp [applyCityOp, removeInvader, h]

theorem cityInv_applyCityOp (c : city) (op : CityOp) (h : cityInv c) :
    cityInv (applyCityOp c op) := by
  obtain ⟨hsub, hcard, hdes⟩ := h
  cases op with
  | laySiege id =>
    simp only [applyCityOp, laySiege]
    split
    · exact ⟨hsub, hcard, hdes⟩
    · rename_i hne
      refine ⟨hsub.trans (Finset.subset_insert _ _), ?_, hdes⟩
      calc (insert id c.sieges).card ≤ c.sieges.card + 1 := Finset.card_insert_le _ _
        _ ≤ 2 := by omega
  | addInvader id =>
    simp only [applyCityOp, addInvader]
    split
    · rename_i hmem
      split
      · rename_i h2
        exact ⟨Finset.insert_subset hmem hsub, hcard, by simpa [maxInvaderCount] using h2⟩
      · rename_i h2
        refine ⟨Finset.insert_subset hmem hsub, hcard, ?_⟩
        simp only [maxInvaderCount] at h2
        constructor
        · intro hd
          exfalso
          have hc2 : c.invaders.card = 2 := hdes.mp hd
          have heq : c.invaders = c.sieges :=
            Finset.eq_of_subset_of_card_le hsub (by omega)
          have : id ∈ c.invaders := heq ▸ hmem
          exact h2 (by rwa [Finset.insert_eq_self.mpr this])
        · intro hc
          exact absurd hc h2
    · exact ⟨hsub, hcard, hdes⟩
  | removeInvader id =>
    simp only [applyCityOp, removeInvader]
    split
    · exact ⟨hsub, hcard, hdes⟩
    · rename_i hnd
      have hdf : c.destroyed = false := by
        cases hb : c.destroyed
        · rfl
        · exact absurd hb hnd
      have h3 : c.invaders.card ≤ 2 := le_trans (Finset.card_le_card hsub) hcard
      have h1 : c.invaders.card ≤ 1 := by
        rcases Nat.lt_or_ge c.invaders.card 2 with hlt | hge
        · omega
        · exact absurd (hdes.mpr (by omega)) hnd
      have h4 : (c.invaders.erase id).card ≠ 2 := by
        have h2 := Finset.card_le_card (Finset.erase_subset id c.invaders)
        omega
      refine ⟨Finset.erase_subset_erase _ hsub,
        le_trans (Finset.card_le_card (Finset.erase_subset _ _)) hcard, ?_⟩
      simp [hdf, h4]

theorem cityInv_runCityOps (c : city) (ops : List CityOp) (h : cityInv c) :
    cityInv (runCityOps c ops) := by
  induction ops generalizing c with
  | nil => exact h
  | cons op rest ih => exact ih _ (cityInv_applyCityOp c op h)

/-- Claim C1: for every location and every sequence of reserve/occupy/vacate
operations, the occupant set never holds more than 2 agents; `occupy` sets
`destroyed` exactly in the transition where the occupant count becomes 2
(never at 1, and a 3-occupant state is unreachable), and once `destroyed` is
true no operation makes it false again. -/
theorem C1_occupancy_invariant (nm : Str) (ops : List CityOp) :
    (runCityOps (newCity nm) ops).invaders.card ≤ 2 ∧
    ((runCityOps (newCity nm) ops).destroyed = true ↔
      (runCityOps (newCity nm) ops).invaders.card = 2) ∧
    (∀ op : CityOp, (applyCityOp (runCityOps (newCity nm) ops) op).destroyed = true ↔
      (applyCityOp (runCityOps (newCity nm) ops) op).invaders.card = 2) ∧
    (∀ op : CityOp, (runCityOps (newCity nm) ops).destroyed = true →
      (applyCityOp (runCityOps (newCity nm) ops) op).destroyed = true) := by
  obtain ⟨hsub, hcard, hdes⟩ := cityInv_runCityOps (newCity nm) ops (cityInv_newCity nm)
  refine ⟨le_trans (Finset.card_le_card hsub) hcard, hdes, ?_, ?_⟩
  · intro op
    exact (cityInv_applyCityOp _ op ⟨hsub, hcard, hdes⟩).2.2
  · intro op
    exact destroyed_applyCityOp_mono _ op

theorem C1_occupancy_invariant_witness :
    (runCityOps (newCity ['A'])
      [.laySiege 1, .addInvader 1, .laySiege 2, .addInvader 2]).destroyed = true ∧
    (runCityOps (newCity ['A'])
      [.laySiege 1, .addInvader 1, .laySiege 2, .addInvader 2]).invaders.card = 2 ∧
    (runCityOps (newCity ['A'])
      [.laySiege 1, .addInvader 1, .laySiege 2, .addInvader 2]).invaders.card ≤ 2 :=
  ⟨by decide, by decide, (C1_occupancy_invariant ['A'] _).1⟩

/-- Claim C2 counterexample: occupying does not remove the reservation.  After
`laySiege 1` and `addInvader 1` on a fresh city, agent 1 is an invader and
still holds its siege, refuting "occupy removes agentID from the reserved
set". -/
theorem C2_occupy_counterexample :
    1 ∈ ((laySiege (newCity ['A']) 1).1).sieges ∧
    1 ∈ ((addInvader ((laySiege (newCity ['A']) 1).1) 1).1).invaders ∧
    1 ∈ ((addInvader ((laySiege (newCity ['A']) 1).1) 1).1).sieges :=
  ⟨by decide, by decide, by decide⟩

/-- Claim C2 (amended): `occupy(agentID)` is a no-op without a reservation;
with one, it adds the agent to the occupants while leaving the reserved set
unchanged (the reservation persists until the agent vacates), and when the
resulting occupant count is 2 it sets `destroyed` and emits a destruction
observation naming both occupant ids. -/
theorem C2_occupy_spec (c : city) (id : ℕ) :
    (id ∉ c.sieges → addInvader c id = (c, none)) ∧
    (id ∈ c.sieges →
      (addInvader c id).1.sieges = c.sieges ∧
      (addInvader c id).1.invaders = insert id c.invaders ∧
      (addInvader c id).1.name = c.name ∧
      ((insert id c.invaders).card = 2 →
        (addInvader c id).1.destroyed = true ∧
        (addInvader c id).2 = some (insert id c.invaders)) ∧
      ((insert id c.invaders).card ≠ 2 →
        (addInvader c id).1.destroyed = c.destroyed ∧ (addInvader c id).2 = none)) := by
  constructor
  · intro h
    simp [addInvader, h]
  · intro h
    by_cases h2 : (insert id c.invaders).card = 2
    · simp [addInvader, h, maxInvaderCount, h2]
    · simp [addInvader, h, maxInvaderCount, h2]

theorem C2_occupy_spec_witness :
    1 ∈ siegedCity.sieges ∧ (addInvader siegedCity 1).1.sieges = siegedCity.sieges :=
  ⟨by decide, ((C2_occupy_spec siegedCity 1).2 (by decide)).1⟩

/-- Claim C4: `vacate(agentID)` returns false and leaves the location
unchanged when it is destroyed; otherwise it removes the agent from both the
occupants and the reserved set and returns true. -/
theorem C4_vacate_spec (c : city) (id : ℕ) :
    (c.destroyed = true → removeInvader c id = (c, false)) ∧
    (c.destroyed = false →
      removeInvader c id =
        ({ c with invaders := c.invaders.erase id, sieges := c.sieges.erase id }, true)) := by
  constructor
  · intro h
    simp [removeInvader, h]
  · intro h
    simp [removeInvader, h]

theorem C4_vacate_spec_witness :
    removeInvader deadCity 1 = (deadCity, false) ∧
    (removeInvader (newCity ['B']) 1).2 = true :=
  ⟨(C4_vacate_spec deadCity 1).1 rfl, by rw [(C4_vacate_spec (newCity ['B']) 1).2 rfl]⟩

/-- Claim C5: `reserve(agentID)` succeeds and adds the agent to the reserved
set iff fewer than 2 reservations are outstanding, fails with no side effect
otherwise, and its outcome depends only on the reserved set — it ignores
`destroyed` and the occupants.  (The reserved set of any protocol state holds
at most 2 entries, the stated hypothesis.) -/
theorem C5_reserve_spec (c : city) (id : ℕ) (h : c.sieges.card ≤ 2) :
    ((laySiege c id).2 = true ↔ c.sieges.card < 2) ∧
    ((laySiege c id).2 = true →
      (laySiege c id).1 = { c with sieges := insert id c.sieges } ∧
      id ∈ (laySiege c id).1.sieges) ∧
    ((laySiege c id).2 = false → (laySiege c id).1 = c) ∧
    (∀ (b : Bool) (inv : Finset ℕ),
      (laySiege { c with destroyed := b, invaders := inv } id).2 = (laySiege c id).2 ∧
      (laySiege { c with destroyed := b, invaders := inv } id).1.sieges =
        (laySiege c id).1.sieges) := by
  by_cases h2 : c.sieges.card = 2
  · refine ⟨?_, ?_, ?_, fun b inv => by simp [laySiege, h2]⟩
    · simp only [laySiege, if_pos h2]
      simp
      omega
    · simp [laySiege, h2]
    · simp [laySiege, h2]
  · refine ⟨?_, ?_, ?_, fun b inv => by simp [laySiege, h2]⟩
    · simp only [laySiege, if_neg h2]
      simp
      omega
    · simp [laySiege, h2]
    · simp [laySiege, h2]

theorem C5_reserve_spec_witness :
    wreckedCity.sieges.card ≤ 2 ∧
    ((laySiege wreckedCity 7).2 = true ↔ wreckedCity.sieges.card < 2) :=
  ⟨by decide, (C5_reserve_spec wreckedCity 7 (by decide)).1⟩

/-- Claim C10 counterexample: lifting a siege does not in general preserve
`occupants ⊆ reserved`.  At the protocol-reachable state where agent 1 has
sieged and occupied a fresh city, `liftSiege 1` leaves the agent an occupant
with no reservation. -/
theorem C10_subset_counterexample :
    ((addInvader ((laySiege (newCity ['A']) 1).1) 1).1).invaders ⊆
      ((addInvader ((laySiege (newCity ['A']) 1).1) 1).1).sieges ∧
    ¬ ((liftSiege ((addInvader ((laySiege (newCity ['A']) 1).1) 1).1) 1).invaders ⊆
        (liftSiege ((addInvader ((laySiege (newCity ['A']) 1).1) 1).1) 1).sieges) :=
  ⟨by decide, by decide⟩

/-- Claim C10 (amended): the subset relation `occupants ⊆ reserved` is
preserved by reserve, occupy and vacate; lift-reservation preserves it exactly
when the lifted agent is not an occupant (which is how the agent loop uses it:
a siege is lifted only on a city the agent reserved but never occupied). -/
theorem C10_subset_invariant (c : city) (id : ℕ) (h : c.invaders ⊆ c.sieges) :
    (laySiege c id).1.invaders ⊆ (laySiege c id).1.sieges ∧
    (addInvader c id).1.invaders ⊆ (addInvader c id).1.sieges ∧
    (removeInvader c id).1.invaders ⊆ (removeInvader c id).1.sieges ∧
    (id ∉ c.invaders → (liftSiege c id).invaders ⊆ (liftSiege c id).sieges) := by
  refine ⟨?_, ?_, ?_, ?_⟩
  · by_cases h2 : c.sieges.card = 2
    · simpa [laySiege, h2] using h
    · simp only [laySiege, if_neg h2]
      exact h.trans (Finset.subset_insert _ _)
  · by_cases hm : id ∈ c.sieges
    · by_cases h2 : (insert id c.invaders).card = maxInvaderCount
      · simp only [addInvader, if_pos hm, if_pos h2]
        exact Finset.insert_subset hm h
      · simp only [addInvader, if_pos hm, if_neg h2]
        exact Finset.insert_subset hm h
    · simpa [addInvader, hm] using h
  · by_cases hd : c.destroyed
    · simpa [removeInvader, hd] using h
    · simp only [removeInvader, if_neg hd]
      exact Finset.erase_subset_erase _ h
  · intro hni
    exact Finset.subset_erase.mpr ⟨h, hni⟩

theorem C10_subset_invariant_witness :
    (liftSiege occupiedCity 2).invaders ⊆ (liftSiege occupiedCity 2).sieges :=
  (C10_subset_invariant occupiedCity 2 (by decide)).2.2.2 (by decide)

/-- Claim C3 counterexample: with one city and an agent count of zero,
`SimulateInvasion` passes the emptiness check, starts no agent, and its wait
loop — which returns only after a done signal drops `aliensLeft` to zero —
can never receive a signal (zero agents send none), so the call blocks
instead of returning. -/
theorem C3_zero_aliens_counterexample :
    (SimulateInvasion [newCity ['A']] 0 []).early = false ∧
    (SimulateInvasion [newCity ['A']] 0 []).started = 0 ∧
    (SimulateInvasion [newCity ['A']] 0 []).map = [newCity ['A']] ∧
    waitLoopReturns (SimulateInvasion [newCity ['A']] 0 []).aliensLeft 0 = false :=
  ⟨rfl, rfl, rfl, rfl⟩

/-- Claim C3 (amended): a graph with zero locations makes `SimulateInvasion`
log and return immediately, starting no agent and leaving the map untouched;
an agent count of zero on a nonempty graph likewise starts no agent and
leaves every location untouched, but the call does not return of its own
accord — the wait loop can receive no done signal, so it blocks until
external cancellation. -/
theorem C3_degenerate_inputs (m : List city) (numAliens : ℕ) (seeds : List Str) :
    (m = [] → SimulateInvasion m numAliens seeds = ⟨true, m, 0, (numAliens : ℤ)⟩) ∧
    (m ≠ [] →
      (SimulateInvasion m 0 []).early = false ∧
      (SimulateInvasion m 0 []).map = m ∧
      (SimulateInvasion m 0 []).started = 0 ∧
      ∀ signals : ℕ, signals ≤ (SimulateInvasion m 0 []).started →
        waitLoopReturns (SimulateInvasion m 0 []).aliensLeft signals = false) := by
  constructor
  · intro h
    subst h
    rfl
  · intro h
    have hlen : ¬ m.length = 0 := fun hh => h (List.length_eq_zero.mp hh)
    have hs : SimulateInvasion m 0 [] = ⟨false, m, 0, 0⟩ := by
      simp only [SimulateInvasion, if_neg hlen]
      rfl
    refine ⟨by rw [hs], by rw [hs], by rw [hs], ?_⟩
    intro signals hsig
    rw [hs] at hsig ⊢
    have hz : signals = 0 := Nat.le_zero.mp hsig
    subst hz
    rfl

theorem C3_degenerate_inputs_witness :
    SimulateInvasion ([] : List city) 5 [] = ⟨true, [], 0, ((5 : ℕ) : ℤ)⟩ ∧
    waitLoopReturns (SimulateInvasion [newCity ['B']] 0 []).aliensLeft 0 = false :=
  ⟨(C3_degenerate_inputs [] 5 []).1 rfl,
   ((C3_degenerate_inputs [newCity ['B']] 0 []).2 (List.cons_ne_nil _ _)).2.2.2 0
     (Nat.zero_le _)⟩

theorem singleAgentInv_updateCity (a : ℕ) (m : List city) (nm : Str) (f : city → city)
    (hm : ∀ c ∈ m, singleAgentInv a c) (hf : ∀ c, singleAgentInv a c → singleAgentInv a (f c)) :
    ∀ c ∈ updateCity m nm f, singleAgentInv a c := by
  induction m with
  | nil => intro c hc; cases hc
  | cons x rest ih =>
    intro c hc
    simp only [updateCity] at hc
    by_cases hx : x.name = nm
    · rw [if_pos hx] at hc
      rcases List.mem_cons.mp hc with h1 | h2
      · exact h1 ▸ hf x (hm x (List.mem_cons_self _ _))
      · exact hm c (List.mem_cons_of_mem _ h2)
    · rw [if_neg hx] at hc
      rcases List.mem_cons.mp hc with h1 | h2
      · exact h1 ▸ hm x (List.mem_cons_self _ _)
      · exact ih (fun d hd => hm d (List.mem_cons_of_mem _ hd)) c h2

theorem singleAgentInv_applyAgentOp (a : ℕ) (m : List city) (op : AgentOp)
    (hm : ∀ c ∈ m, singleAgentInv a c) :
    ∀ c ∈ applyAgentOp a m op, singleAgentInv a c := by
  cases op with
  | laySiege loc =>
    refine singleAgentInv_updateCity a m loc _ hm ?_
    intro c ⟨h1, h2, h3⟩
    by_cases hc : c.sieges.card = 2
    · simpa [laySiege, hc] using ⟨h1, h2, h3⟩
    · simp only [laySiege, if_neg hc]
      exact ⟨h1, h2, Finset.insert_subset (Finset.mem_singleton_self a) h3⟩
  | addInvader loc =>
    refine singleAgentInv_updateCity a m loc _ hm ?_
    intro c ⟨h1, h2, h3⟩
    by_cases hmem : a ∈ c.sieges
    · have hsub : insert a c.invaders ⊆ {a} :=
        Finset.insert_subset (Finset.mem_singleton_self a) h2
      have hcard : (insert a c.invaders).card ≠ maxInvaderCount := by
        have := Finset.card_le_card hsub
        simp only [Finset.card_singleton] at this
        simp only [maxInvaderCount]
        omega
      simp only [addInvader, if_pos hmem, if_neg hcard]
      exact ⟨h1, hsub, h3⟩
    · simpa [addInvader, hmem] using ⟨h1, h2, h3⟩
  | removeInvader loc =>
    refine singleAgentInv_updateCity a m loc _ hm ?_
    intro c ⟨h1, h2, h3⟩
    have hnd : ¬ (c.destroyed = true) := by simp [h1]
    simp only [removeInvader, if_neg hnd]
    exact ⟨h1, (Finset.erase_subset _ _).trans h2, (Finset.erase_subset _ _).trans h3⟩
  | liftSiege loc =>
    refine singleAgentInv_updateCity a m loc _ hm ?_
    intro c ⟨h1, h2, h3⟩
    exact ⟨h1, h2, (Finset.erase_subset _ _).trans h3⟩

/-- Claim C8: in a run with exactly one agent, started on a map of fresh
locations, every state reachable by that agent's protocol calls has every
location undestroyed with at most one occupant — one agent alone never
reaches the 2-occupant threshold. -/
theorem C8_single_agent_no_destruction (a : ℕ) (m : List city) (ops : List AgentOp)
    (hclean : ∀ c ∈ m, c.destroyed = false ∧ c.invaders = ∅ ∧ c.sieges = ∅) :
    ∀ c ∈ runAgentOps a m ops, c.destroyed = false ∧ c.invaders.card ≤ 1 := by
  have key : ∀ c ∈ runAgentOps a m ops, singleAgentInv a c := by
    have hstart : ∀ c ∈ m, singleAgentInv a c := by
      intro c hc
      obtain ⟨h1, h2, h3⟩ := hclean c hc
      exact ⟨h1, by simp [h2], by simp [h3]⟩
    clear hclean
    induction ops generalizing m with
    | nil => exact hstart
    | cons op rest ih =>
      exact ih (applyAgentOp a m op) (singleAgentInv_applyAgentOp a m op hstart)
  intro c hc
  obtain ⟨h1, h2, _⟩ := key c hc
  refine ⟨h1, ?_⟩
  have := Finset.card_le_card h2
  simpa using this

theorem C8_single_agent_no_destruction_witness :
    (∀ c ∈ [newCity ['A']], c.destroyed = false ∧ c.invaders = ∅ ∧ c.sieges = ∅) ∧
    ∀ c ∈ runAgentOps 0 [newCity ['A']] [AgentOp.laySiege ['A'], AgentOp.addInvader ['A']],
      c.destroyed = false ∧ c.invaders.card ≤ 1 :=
  ⟨by decide, C8_single_agent_no_destruction 0 _ _ (by decide)⟩

theorem runAlienLoop_spec (outs : List IterOutcome) (mc : ℕ) (h : mc < maxMoveCount) :
    (runAlienLoop mc outs).1 ≤ maxMoveCount ∧
    (runAlienLoop mc outs).1 ≤ mc + outs.length ∧
    ((runAlienLoop mc outs).1 = maxMoveCount → (runAlienLoop mc outs).2.1 = true) ∧
    (runAlienLoop mc outs).2.2.count AlienEvent.notifyDone ≤ 1 ∧
    (AlienEvent.notifyDone ∈ (runAlienLoop mc outs).2.2 →
      (runAlienLoop mc outs).2.2.getLast? = some AlienEvent.notifyDone) := by
  induction outs generalizing mc with
  | nil =>
    refine ⟨le_of_lt h, by simp [runAlienLoop], ?_, by simp [runAlienLoop], ?_⟩
    · intro he
      exact absurd he (Nat.ne_of_lt h)
    · intro hmem
      simp [runAlienLoop] at hmem
  | cons o rest ih =>
    cases o with
    | cancelled =>
      refine ⟨le_of_lt h, by simp [runAlienLoop], ?_, by simp [runAlienLoop], ?_⟩
      · intro he
        exact absurd he (Nat.ne_of_lt h)
      · intro hmem
        simp [runAlienLoop] at hmem
    | trapped =>
      refine ⟨le_of_lt h, by simp [runAlienLoop], fun _ => rfl, by simp [runAlienLoop], ?_⟩
      intro _
      rfl
    | vacateFailed =>
      refine ⟨le_of_lt h, by simp [runAlienLoop], fun _ => rfl, ?_, ?_⟩
      · simp [runAlienLoop]
      · intro _
        rfl
    | moved =>
      by_cases hcap : mc + 1 ≥ maxMoveCount
      · refine ⟨?_, ?_, ?_, ?_, ?_⟩
        · simp only [runAlienLoop, if_pos hcap]
          omega
        · simp only [runAlienLoop, if_pos hcap, List.length_cons]
          omega
        · intro _
          simp [runAlienLoop, if_pos hcap]
        · simp only [runAlienLoop, if_pos hcap]
          decide
        · intro _
          simp only [runAlienLoop, if_pos hcap]
          decide
      · have hlt : mc + 1 < maxMoveCount := by omega
        obtain ⟨ih1, ih2, ih3, ih4, ih5⟩ := ih (mc + 1) hlt
        refine ⟨?_, ?_, ?_, ?_, ?_⟩ <;>
          simp only [runAlienLoop, if_neg hcap]
        · exact ih1
        · simp only [List.length_cons]
          omega
        · exact ih3
        · simpa using ih4
        · intro hmem
          have hmem2 : AlienEvent.notifyDone ∈ (runAlienLoop (mc + 1) rest).2.2 := by
            simpa using hmem
          have hne : (runAlienLoop (mc + 1) rest).2.2 ≠ [] := by
            intro hz
            rw [hz] at hmem2
            cases hmem2
          rw [List.getLast?_append_of_ne_nil _ hne]
          exact ih5 hmem2

/-- Claim C9: the agent performs at most `maxMoveCount` = 10000 moves — the
counter grows by at most one per iteration — and the loop returns, having sent
its done notification, as soon as the counter reaches the cap; the event trace
never continues past a notification, so no reserve/occupy/vacate follows it. -/
theorem C9_move_cap (outs : List IterOutcome) :
    (runAlienLoop 0 outs).1 ≤ maxMoveCount ∧
    (runAlienLoop 0 outs).1 ≤ outs.length ∧
    ((runAlienLoop 0 outs).1 = maxMoveCount → (runAlienLoop 0 outs).2.1 = true) ∧
    (runAlienLoop 0 outs).2.2.count AlienEvent.notifyDone ≤ 1 ∧
    (AlienEvent.notifyDone ∈ (runAlienLoop 0 outs).2.2 →
      (runAlienLoop 0 outs).2.2.getLast? = some AlienEvent.notifyDone) := by
  have h := runAlienLoop_spec outs 0 (by simp [maxMoveCount])
  simpa using h

theorem runAlienLoop_replicate_moved (n : ℕ) :
    ∀ mc : ℕ, mc + n = maxMoveCount → 1 ≤ n →
      (runAlienLoop mc (List.replicate n IterOutcome.moved)).1 = maxMoveCount := by
  induction n with
  | zero =>
    intro mc _ hn
    exact absurd hn (by omega)
  | succ k ihk =>
    intro mc hsum _
    simp only [List.replicate_succ, runAlienLoop]
    by_cases hcap : mc + 1 ≥ maxMoveCount
    · simp only [if_pos hcap]
      omega
    · simp only [if_neg hcap]
      exact ihk (mc + 1) (by omega) (by omega)

theorem getCity_name (m : List city) (nm : Str) (x : city) (h : getCity m nm = some x) :
    x.name = nm := by
  induction m with
  | nil => cases h
  | cons c rest ih =>
    simp only [getCity] at h
    by_cases hc : c.name = nm
    · rw [if_pos hc] at h
      cases h
      exact hc
    · rw [if_neg hc] at h
      exact ih h

theorem getCity_mem (m : List city) (nm : Str) (x : city) (h : getCity m nm = some x) :
    x ∈ m := by
  induction m with
  | nil => cases h
  | cons c rest ih =>
    simp only [getCity] at h
    by_cases hc : c.name = nm
    · rw [if_pos hc] at h
      cases h
      exact List.mem_cons_self _ _
    · rw [if_neg hc] at h
      exact List.mem_cons_of_mem _ (ih h)

theorem getCity_eq_none (m : List city) (nm : Str) (h : nm ∉ m.map city.name) :
    getCity m nm = none := by
  induction m with
  | nil => rfl
  | cons c rest ih =>
    simp only [List.map_cons, List.mem_cons, not_or] at h
    have hne : ¬ c.name = nm := fun he => h.1 he.symm
    simp only [getCity, if_neg hne]
    exact ih h.2

theorem getCity_mem_self (m : List city) (c : city) (hnd : (m.map city.name).Nodup)
    (hc : c ∈ m) : getCity m c.name = some c := by
  induction m with
  | nil => cases hc
  | cons x rest ih =>
    simp only [List.map_cons, List.nodup_cons] at hnd
    rcases List.mem_cons.mp hc with h1 | h2
    · subst h1
      simp [getCity]
    · have hne : ¬ x.name = c.name := by
        intro he
        exact hnd.1 (he ▸ List.mem_map_of_mem city.name h2)
      simp only [getCity, if_neg hne]
      exact ih hnd.2 h2

theorem getCity_eraseCity (m : List city) (nm : Str) (hnd : (m.map city.name).Nodup)
    (k : Str) : getCity (eraseCity m nm) k = if k = nm then none else getCity m k := by
  induction m with
  | nil => simp [eraseCity, getCity]
  | cons c rest ih =>
    simp only [List.map_cons, List.nodup_cons] at hnd
    by_cases hc : c.name = nm
    · simp only [eraseCity, if_pos hc]
      by_cases hk : k = nm
      · rw [if_pos hk, hk]
        exact getCity_eq_none rest nm (hc ▸ hnd.1)
      · rw [if_neg hk]
        simp only [getCity, if_neg (fun he : c.name = k => hk (he ▸ hc))]
    · simp only [eraseCity, if_neg hc, getCity]
      by_cases hck : c.name = k
      · have hk : ¬ k = nm := fun he => hc (hck.trans he)
        rw [if_pos hck, if_neg hk, if_pos hck]
      · rw [if_neg hck, if_neg hck, ih hnd.2]

theorem getCity_updateCity (m : List city) (nm : Str) (f : city → city)
    (hf : ∀ x, (f x).name = x.name) (k : Str) :
    getCity (updateCity m nm f) k =
      if k = nm then (getCity m nm).map f else getCity m k := by
  induction m with
  | nil => simp [updateCity, getCity]
  | cons c rest ih =>
    simp only [updateCity]
    by_cases hc : c.name = nm
    · rw [if_pos hc]
      by_cases hk : k = nm
      · subst hk
        have h1 : (f c).name = k := by rw [hf c, hc]
        simp [getCity, h1, hc]
      · have hfk : ¬ (f c).name = k := by
          rw [hf c, hc]
          exact fun he => hk he.symm
        have hck : ¬ c.name = k := by
          rw [hc]
          exact fun he => hk he.symm
        simp only [getCity, if_neg hfk, if_neg hck, if_neg hk]
    · rw [if_neg hc]
      by_cases hck : c.name = k
      · have hk : ¬ k = nm := fun he => hc (hck.trans he)
        simp only [getCity, if_pos hck, if_neg hk]
      · simp only [getCity, if_neg hck, ih, if_neg hc]

theorem map_name_updateCity (m : List city) (nm : Str) (f : city → city)
    (hf : ∀ x, (f x).name = x.name) :
    (updateCity m nm f).map city.name = m.map city.name := by
  induction m with
  | nil => rfl
  | cons c rest ih =>
    simp only [updateCity]
    by_cases hc : c.name = nm
    · rw [if_pos hc]
      simp [hf]
    · rw [if_neg hc]
      simp [ih]

theorem map_name_eraseCity (m : List city) (nm : Str) :
    (eraseCity m nm).map city.name = (m.map city.name).erase nm := by
  induction m with
  | nil => rfl
  | cons c rest ih =>
    simp only [eraseCity, List.map_cons]
    by_cases hc : c.name = nm
    · rw [if_pos hc, hc, List.erase_cons_head]
    · rw [if_neg hc, List.map_cons, List.erase_cons_tail, ih]
      simp [hc]

theorem getOpposite_getOpposite (d : direction) : d.getOpposite.getOpposite = d := by
  cases d <;> rfl

theorem mem_dirList (d : direction) : d ∈ dirList := by
  cases d <;> simp [dirList]

theorem getCity_stripFold (ds : List direction) (c : city) (m : List city) (k : Str) :
    getCity
      (ds.foldl (fun acc d =>
        match c.neighbors d with
        | none => acc
        | some nbr => updateCity acc nbr (fun x => removeNeighbor x d.getOpposite)) m) k
    = (getCity m k).map (fun x =>
        ds.foldl (fun y d =>
          match c.neighbors d with
          | none => y
          | some nbr => if nbr = k then removeNeighbor y d.getOpposite else y) x) := by
  induction ds generalizing m with
  | nil =>
    simp only [List.foldl_nil]
    cases getCity m k <;> rfl
  | cons d rest ih =>
    cases hcd : c.neighbors d with
    | none =>
      simp only [List.foldl_cons, hcd]
      exact ih m
    | some nbr =>
      simp only [List.foldl_cons, hcd]
      rw [ih]
      rw [getCity_updateCity m nbr (fun x => removeNeighbor x d.getOpposite) (fun x => rfl) k]
      by_cases hk : k = nbr
      · subst hk
        rw [if_pos rfl]
        cases hg : getCity m k with
        | none => rfl
        | some x => simp
      · rw [if_neg hk]
        cases hg : getCity m k with
        | none => rfl
        | some x =>
          simp only [Option.map_some']
          rw [if_neg (fun he : nbr = k => hk he.symm)]

theorem stripEntry_spec (ds : List direction) (c : city) (k : Str) (x : city) :
    (ds.foldl (fun y d =>
        match c.neighbors d with
        | none => y
        | some nbr => if nbr = k then removeNeighbor y d.getOpposite else y) x)
    = { x with neighbors := fun s =>
          if ∃ d ∈ ds, c.neighbors d = some k ∧ d.getOpposite = s then none
          else x.neighbors s } := by
  induction ds generalizing x with
  | nil =>
    cases x
    simp only [List.foldl_nil, List.not_mem_nil, false_and, exists_false, if_false]
  | cons d rest ih =>
    cases hcd : c.neighbors d with
    | none =>
      simp only [List.foldl_cons, hcd, ih]
      congr 1
      funext s
      have hiff : (∃ e ∈ d :: rest, c.neighbors e = some k ∧ e.getOpposite = s) ↔
          (∃ e ∈ rest, c.neighbors e = some k ∧ e.getOpposite = s) := by
        constructor
        · rintro ⟨e, he, h1, h2⟩
          rcases List.mem_cons.mp he with rfl | hm
          · rw [hcd] at h1
            cases h1
          · exact ⟨e, hm, h1, h2⟩
        · rintro ⟨e, he, h1, h2⟩
          exact ⟨e, List.mem_cons_of_mem _ he, h1, h2⟩
      rw [if_congr hiff rfl rfl]
    | some nbr =>
      by_cases hk : nbr = k
      · subst hk
        simp only [List.foldl_cons, hcd, if_pos rfl, if_true, ih]
        congr 1
        funext s
        by_cases hrest : ∃ e ∈ rest, c.neighbors e = some nbr ∧ e.getOpposite = s
        · have hcons : ∃ e ∈ d :: rest, c.neighbors e = some nbr ∧ e.getOpposite = s := by
            obtain ⟨e, he, h1, h2⟩ := hrest
            exact ⟨e, List.mem_cons_of_mem _ he, h1, h2⟩
          rw [if_pos hrest, if_pos hcons]
        · rw [if_neg hrest]
          simp only [removeNeighbor]
          by_cases hs : s = d.getOpposite
          · have hcons : ∃ e ∈ d :: rest, c.neighbors e = some nbr ∧ e.getOpposite = s :=
              ⟨d, List.mem_cons_self _ _, hcd, hs.symm⟩
            rw [if_pos hs, if_pos hcons]
          · have hcons : ¬ ∃ e ∈ d :: rest, c.neighbors e = some nbr ∧ e.getOpposite = s := by
              rintro ⟨e, he, h1, h2⟩
              rcases List.mem_cons.mp he with rfl | hm
              · exact hs h2.symm
              · exact hrest ⟨e, hm, h1, h2⟩
            rw [if_neg hs, if_neg hcons]
      · simp only [List.foldl_cons, hcd, if_neg hk, ih]
        congr 1
        funext s
        have hiff : (∃ e ∈ d :: rest, c.neighbors e = some k ∧ e.getOpposite = s) ↔
            (∃ e ∈ rest, c.neighbors e = some k ∧ e.getOpposite = s) := by
          constructor
          · rintro ⟨e, he, h1, h2⟩
            rcases List.mem_cons.mp he with rfl | hm
            · rw [hcd] at h1
              cases h1
              exact absurd rfl hk
            · exact ⟨e, hm, h1, h2⟩
          · rintro ⟨e, he, h1, h2⟩
            exact ⟨e, List.mem_cons_of_mem _ he, h1, h2⟩
        rw [if_congr hiff rfl rfl]

theorem getCity_removeCity (m : List city) (nm : Str) (c : city)
    (hnd : (m.map city.name).Nodup) (hc : getCity m nm = some c) (k : Str) :
    getCity (removeCity m nm) k =
      if k = nm then none
      else (getCity m k).map (fun x =>
        { x with neighbors := fun s =>
            if c.neighbors s.getOpposite = some x.name then none else x.neighbors s }) := by
  simp only [removeCity, hc, stripFromNeighbors]
  rw [getCity_stripFold dirList c (eraseCity m nm) k,
    getCity_eraseCity m nm hnd k]
  by_cases hk : k = nm
  · simp [hk]
  · rw [if_neg hk, if_neg hk]
    cases hgk : getCity m k with
    | none => rfl
    | some x =>
      have hxk : x.name = k := getCity_name m k x hgk
      simp only [Option.map_some']
      rw [stripEntry_spec dirList c k x]
      have hfun : (fun s => if ∃ d ∈ dirList, c.neighbors d = some k ∧ d.getOpposite = s
            then none else x.neighbors s)
          = (fun s => if c.neighbors s.getOpposite = some x.name then none
            else x.neighbors s) := by
        funext s
        have hiff : (∃ d ∈ dirList, c.neighbors d = some k ∧ d.getOpposite = s) ↔
            c.neighbors s.getOpposite = some x.name := by
          rw [hxk]
          constructor
          · rintro ⟨d, _, h1, h2⟩
            have hd : d = s.getOpposite := by
              rw [← h2, getOpposite_getOpposite]
            exact hd ▸ h1
          · intro h
            exact ⟨s.getOpposite, mem_dirList _, h, getOpposite_getOpposite s⟩
        rw [if_congr hiff rfl rfl]
      rw [hfun]

theorem map_name_stripFold (ds : List direction) (c : city) (m : List city) :
    (ds.foldl (fun acc d =>
      match c.neighbors d with
      | none => acc
      | some nbr => updateCity acc nbr (fun x => removeNeighbor x d.getOpposite)) m).map
        city.name = m.map city.name := by
  induction ds generalizing m with
  | nil => rfl
  | cons d rest ih =>
    cases hcd : c.neighbors d with
    | none =>
      simp only [List.foldl_cons, hcd]
      exact ih m
    | some nbr =>
      simp only [List.foldl_cons, hcd]
      rw [ih, map_name_updateCity]
      intro x
      rfl

theorem map_name_removeCity (m : List city) (nm : Str) (c : city)
    (hc : getCity m nm = some c) :
    (removeCity m nm).map city.name = (m.map city.name).erase nm := by
  simp only [removeCity, hc, stripFromNeighbors]
  rw [map_name_stripFold, map_name_eraseCity]

theorem prune_fold_count (suf : List city) (acc : List city × ℕ) :
    (suf.foldl
      (fun acc c => if c.destroyed then (removeCity acc.1 c.name, acc.2 + 1) else acc)
      acc).2 = acc.2 + (suf.filter (fun c => c.destroyed)).length := by
  induction suf generalizing acc with
  | nil => simp
  | cons c rest ih =>
    cases hd : c.destroyed with
    | false => simp [hd, ih]
    | true =>
      simp only [List.foldl_cons, hd, if_pos rfl, List.filter_cons, ih]
      simp
      omega

theorem prune_fold_clean (suf : List city) (acc : List city × ℕ)
    (h : ∀ c ∈ suf, c.destroyed = false) :
    suf.foldl
      (fun acc c => if c.destroyed then (removeCity acc.1 c.name, acc.2 + 1) else acc)
      acc = acc := by
  induction suf generalizing acc with
  | nil => rfl
  | cons c rest ih =>
    have hc := h c (List.mem_cons_self _ _)
    simp only [List.foldl_cons, hc, Bool.false_eq_true, if_false]
    exact ih acc (fun d hd => h d (List.mem_cons_of_mem _ hd))

theorem prune_fold_none (suf : List city) (acc : List city × ℕ)
    (hk : (acc.1.map city.name).Nodup)
    (hpres : ∀ c ∈ suf, ∃ x, getCity acc.1 c.name = some x)
    (hsuf : (suf.map city.name).Nodup) (k : Str) :
    getCity (suf.foldl
      (fun acc c => if c.destroyed then (removeCity acc.1 c.name, acc.2 + 1) else acc)
      acc).1 k = none ↔
      (getCity acc.1 k = none ∨ ∃ c ∈ suf, c.destroyed = true ∧ c.name = k) := by
  induction suf generalizing acc with
  | nil => simp
  | cons c rest ih =>
    simp only [List.map_cons, List.nodup_cons] at hsuf
    cases hd : c.destroyed with
    | false =>
      simp only [List.foldl_cons, hd, Bool.false_eq_true, if_false]
      rw [ih acc hk (fun d hdm => hpres d (List.mem_cons_of_mem _ hdm)) hsuf.2 ]
      constructor
      · rintro (h1 | ⟨e, he, h2⟩)
        · exact Or.inl h1
        · exact Or.inr ⟨e, List.mem_cons_of_mem _ he, h2⟩
      · rintro (h1 | ⟨e, he, h2⟩)
        · exact Or.inl h1
        · rcases List.mem_cons.mp he with rfl | hm
          · rw [hd] at h2
            cases h2.1
          · exact Or.inr ⟨e, hm, h2⟩
    | true =>
      obtain ⟨x, hx⟩ := hpres c (List.mem_cons_self _ _)
      simp only [List.foldl_cons, hd, if_pos rfl, if_true]
      have hk2 : ((removeCity acc.1 c.name).map city.name).Nodup := by
        rw [map_name_removeCity acc.1 c.name x hx]
        exact hk.erase _
      have hpres2 : ∀ d ∈ rest, ∃ y, getCity (removeCity acc.1 c.name) d.name = some y := by
        intro d hdm
        obtain ⟨y, hy⟩ := hpres d (List.mem_cons_of_mem _ hdm)
        have hne : ¬ d.name = c.name := by
          intro he
          exact hsuf.1 (he ▸ List.mem_map_of_mem city.name hdm)
        rw [getCity_removeCity acc.1 c.name x hk hx d.name, if_neg hne, hy]
        exact ⟨_, rfl⟩
      rw [ih (removeCity acc.1 c.name, acc.2 + 1) hk2 hpres2 hsuf.2]
      rw [getCity_removeCity acc.1 c.name x hk hx k]
      by_cases hkc : k = c.name
      · simp only [if_pos hkc]
        constructor
        · intro _
          exact Or.inr ⟨c, List.mem_cons_self _ _, hd, hkc.symm⟩
        · intro _
          exact Or.inl trivial
      · simp only [if_neg hkc, Option.map_eq_none']
        constructor
        · rintro (h1 | ⟨e, he, h2⟩)
          · exact Or.inl h1
          · exact Or.inr ⟨e, List.mem_cons_of_mem _ he, h2⟩
        · rintro (h1 | ⟨e, he, h2⟩)
          · exact Or.inl h1
          · rcases List.mem_cons.mp he with rfl | hm
            · exact absurd h2.2.symm hkc
            · exact Or.inr ⟨e, hm, h2⟩

/-- Claim C7: `pruneDestroyedCities` removes from the lookup table exactly
the destroyed locations and returns their number; `removeCity` deletes its
target and strips from each former neighbor the reverse link in the opposite
direction (and is a no-op on a missing name); and pruning a graph free of
destroyed locations leaves it unchanged with a count of 0. -/
theorem C7_prune_spec (m : List city) (hnd : (m.map city.name).Nodup) :
    (∀ k, (∃ x, getCity (pruneDestroyedCities m).1 k = some x) ↔
      (∃ c ∈ m, c.name = k ∧ c.destroyed = false)) ∧
    (pruneDestroyedCities m).2 = (m.filter (fun c => c.destroyed)).length ∧
    ((∀ c ∈ m, c.destroyed = false) → pruneDestroyedCities m = (m, 0)) ∧
    (∀ nm, getCity m nm = none → removeCity m nm = m) ∧
    (∀ nm c, getCity m nm = some c → ∀ k,
      getCity (removeCity m nm) k =
        if k = nm then none
        else (getCity m k).map (fun x =>
          { x with neighbors := fun s =>
              if c.neighbors s.getOpposite = some x.name then none
              else x.neighbors s })) := by
  refine ⟨?_, ?_, ?_, ?_, ?_⟩
  · intro k
    have hfold := prune_fold_none m (m, 0) hnd
      (fun c hc => ⟨c, getCity_mem_self m c hnd hc⟩) hnd k
    rw [pruneDestroyedCities]
    constructor
    · rintro ⟨x, hx⟩
      have hnn : ¬ (getCity m k = none ∨ ∃ c ∈ m, c.destroyed = true ∧ c.name = k) := by
        intro hcontra
        rw [← hfold] at hcontra
        rw [hcontra] at hx
        cases hx
      push_neg at hnn
      obtain ⟨h1, h2⟩ := hnn
      obtain ⟨y, hy⟩ := Option.ne_none_iff_exists'.mp h1
      refine ⟨y, getCity_mem m k y hy, getCity_name m k y hy, ?_⟩
      cases hyd : y.destroyed with
      | false => rfl
      | true => exact absurd (getCity_name m k y hy) (h2 y (getCity_mem m k y hy) hyd)
    · rintro ⟨c, hcm, hcn, hcd⟩
      have hlook : getCity m k = some c := hcn ▸ getCity_mem_self m c hnd hcm
      have hnone : ¬ getCity (m.foldl
          (fun acc c => if c.destroyed then (removeCity acc.1 c.name, acc.2 + 1) else acc)
          (m, 0)).1 k = none := by
        rw [hfold]
        rintro (h1 | ⟨e, he, h2, h3⟩)
        · rw [hlook] at h1
          cases h1
        · have : getCity m k = some e := h3 ▸ getCity_mem_self m e hnd he
          rw [hlook] at this
          cases this
          rw [hcd] at h2
          cases h2
      exact Option.ne_none_iff_exists'.mp hnone
  · simpa [pruneDestroyedCities] using prune_fold_count m (m, 0)
  · intro h
    exact prune_fold_clean m (m, 0) h
  · intro nm h
    simp [removeCity, h]
  · intro nm c hc k
    exact getCity_removeCity m nm c hnd hc k

theorem C7_prune_spec_witness :
    (pruneDemo.map city.name).Nodup ∧
    (pruneDestroyedCities pruneDemo).2 =
      (pruneDemo.filter (fun c => c.destroyed)).length ∧
    (pruneDemo.filter (fun c => c.destroyed)).length = 1 :=
  ⟨by decide, (C7_prune_spec pruneDemo (by decide)).2.1, by decide⟩

/-- Claim C6 counterexample: parsing the single line `A north=B` and
serializing immediately yields, for location `B`, the reverse pair
`(south, A)` that `InitMap` installed — a pair the input never gave `B`
(the input has no line for `B` at all). -/
theorem C6_roundtrip_counterexample :
    inputPairs [asymLine] ['B'] = [] ∧
    WriteOutput (InitMap [asymLine]) =
      [(['A'], [(direction.north, ['B'])]), (['B'], [(direction.south, ['A'])])] ∧
    [(direction.south, (['A'] : Str))] ≠ ([] : List (direction × Str)) :=
  ⟨by decide, by decide, by decide⟩

theorem getOpposite_ne (d : direction) : d.getOpposite ≠ d := by
  cases d <;> decide

theorem getCity_addCity (m : List city) (c : city) (k : Str) :
    getCity (addCity m c) k = if k = c.name then some c else getCity m k := by
  induction m with
  | nil =>
    simp only [addCity, getCity]
    by_cases hk : k = c.name
    · rw [if_pos (show c.name = k from hk.symm), if_pos hk]
    · rw [if_neg (fun he : c.name = k => hk he.symm), if_neg hk]
  | cons x rest ih =>
    simp only [addCity]
    by_cases hx : x.name = c.name
    · rw [if_pos hx]
      simp only [getCity]
      by_cases hk : k = c.name
      · rw [if_pos (hk ▸ rfl : c.name = k), if_pos hk]
      · rw [if_neg (fun he : c.name = k => hk he.symm), if_neg hk,
          if_neg (fun he : x.name = k => hk (he.symm.trans hx))]
    · rw [if_neg hx]
      simp only [getCity]
      by_cases hxk : x.name = k
      · rw [if_pos hxk, if_neg (fun he : k = c.name => hx (hxk.trans he)), if_pos hxk]
      · rw [if_neg hxk, if_neg hxk, ih]

theorem mem_map_name_addCity (m : List city) (c : city) (n : Str) :
    n ∈ (addCity m c).map city.name ↔ n = c.name ∨ n ∈ m.map city.name := by
  induction m with
  | nil => simp [addCity, eq_comm]
  | cons x rest ih =>
    simp only [addCity]
    by_cases hx : x.name = c.name
    · rw [if_pos hx]
      simp only [List.map_cons, List.mem_cons]
      rw [hx]
      tauto
    · rw [if_neg hx]
      simp only [List.map_cons, List.mem_cons, ih]
      tauto

theorem nodup_addCity (m : List city) (c : city) (h : (m.map city.name).Nodup) :
    ((addCity m c).map city.name).Nodup := by
  induction m with
  | nil => simp [addCity]
  | cons x rest ih =>
    simp only [List.map_cons, List.nodup_cons] at h
    simp only [addCity]
    by_cases hx : x.name = c.name
    · rw [if_pos hx]
      simp only [List.map_cons, List.nodup_cons]
      exact ⟨hx ▸ h.1, h.2⟩
    · rw [if_neg hx]
      simp only [List.map_cons, List.nodup_cons]
      refine ⟨?_, ih h.2⟩
      rw [mem_map_name_addCity]
      rintro (he | hm)
      · exact hx he
      · exact h.1 hm

theorem getCity_getOrAddCity (m : List city) (t : Str) (k : Str) :
    getCity (getOrAddCity m t) k =
      if k = t then some ((getCity m t).getD (newCity t)) else getCity m k := by
  cases hg : getCity m t with
  | some c =>
    simp only [getOrAddCity, hg]
    by_cases hk : k = t
    · rw [if_pos hk, hk, hg]
      rfl
    · rw [if_neg hk]
  | none =>
    simp only [getOrAddCity, hg]
    rw [getCity_addCity]
    simp only [newCity]
    by_cases hk : k = t
    · rw [if_pos hk, if_pos hk]
      rfl
    · rw [if_neg hk, if_neg hk]

theorem nodup_getOrAddCity (m : List city) (t : Str) (h : (m.map city.name).Nodup) :
    ((getOrAddCity m t).map city.name).Nodup := by
  cases hg : getCity m t with
  | some c => simpa only [getOrAddCity, hg] using h
  | none =>
    simp only [getOrAddCity, hg]
    exact nodup_addCity m _ h

theorem name_inj_of_nodup (L : List cityLine) (h : (L.map cityLine.name).Nodup)
    {a b : cityLine} (ha : a ∈ L) (hb : b ∈ L) (he : a.name = b.name) : a = b :=
  List.inj_on_of_nodup_map h ha hb he

theorem addNeighbor_neighbors (c : city) (e : direction) (nbr : Str) (e' : direction) :
    (addNeighbor c e nbr).neighbors e' = if e' = e then some nbr else c.neighbors e' := rfl

theorem addNeighbor_name (c : city) (e : direction) (nbr : Str) :
    (addNeighbor c e nbr).name = c.name := rfl

theorem midInv_step (L P : List cityLine) (ℓ : cityLine) (done : List direction)
    (d : direction) (m : List city)
    (hndL : (L.map cityLine.name).Nodup) (hsym : symmetricLines L)
    (hmemL : ℓ ∈ L) (hPL : ∀ ℓ' ∈ P, ℓ' ∈ L) (hPn : ∀ ℓ' ∈ P, ℓ'.name ≠ ℓ.name)
    (hinv : midInv P ℓ done m) :
    midInv P ℓ (done ++ [d])
      (match ℓ.nbrs d with
       | none => m
       | some tgt =>
         updateCity
           (updateCity (getOrAddCity m tgt) tgt
             (fun x => addNeighbor x d.getOpposite ℓ.name))
           ℓ.name (fun x => addNeighbor x d tgt)) := by
  obtain ⟨hK1, hK2, hB, hOwn⟩ := hinv
  cases hcd : ℓ.nbrs d with
  | none =>
    refine ⟨?_, hK2, hB, ?_⟩
    · intro nm
      rw [hK1 nm]
      constructor
      · rintro (h | h | ⟨e, he, hne⟩)
        · exact Or.inl h
        · exact Or.inr (Or.inl h)
        · exact Or.inr (Or.inr ⟨e, List.mem_append_left _ he, hne⟩)
      · rintro (h | h | ⟨e, he, hne⟩)
        · exact Or.inl h
        · exact Or.inr (Or.inl h)
        · rcases List.mem_append.mp he with he1 | he2
          · exact Or.inr (Or.inr ⟨e, he1, hne⟩)
          · have hed : e = d := List.mem_singleton.mp he2
            subst hed
            rw [hcd] at hne
            cases hne
    · intro x hx
      obtain ⟨hown1, hown2⟩ := hOwn x hx
      refine ⟨?_, hown2⟩
      intro e he
      rcases List.mem_append.mp he with he1 | he2
      · exact hown1 e he1
      · have hed : e = d := List.mem_singleton.mp he2
        subst hed
        cases hxe : x.neighbors e with
        | none => rw [hcd]
        | some t =>
          have hcontra := hown2 e t hxe
          rw [hcd] at hcontra
          cases hcontra
  | some tgt =>
    obtain ⟨ℓT, hTL, hTn, hTb⟩ := hsym ℓ hmemL d tgt hcd
    obtain ⟨x0, hx0⟩ : ∃ x, getCity m ℓ.name = some x := (hK1 ℓ.name).mpr (Or.inr (Or.inl rfl))
    have hdmem : d ∈ done ++ [d] := List.mem_append_right _ (List.mem_singleton_self d)
    have hknd : ((updateCity
        (updateCity (getOrAddCity m tgt) tgt
          (fun x => addNeighbor x d.getOpposite ℓ.name))
        ℓ.name (fun x => addNeighbor x d tgt)).map city.name).Nodup := by
      rw [map_name_updateCity _ _ (fun x => addNeighbor x d tgt)
          (fun x => addNeighbor_name x d tgt),
        map_name_updateCity _ _ (fun x => addNeighbor x d.getOpposite ℓ.name)
          (fun x => addNeighbor_name x d.getOpposite ℓ.name)]
      exact nodup_getOrAddCity m tgt hK2
    by_cases hself : tgt = ℓ.name
    · have h1 : getCity (updateCity
          (updateCity (getOrAddCity m tgt) tgt
            (fun x => addNeighbor x d.getOpposite ℓ.name))
          ℓ.name (fun x => addNeighbor x d tgt)) tgt
          = some (addNeighbor (addNeighbor x0 d.getOpposite ℓ.name) d tgt) := by
        rw [getCity_updateCity _ _ (fun x => addNeighbor x d tgt)
            (fun x => addNeighbor_name x d tgt), if_pos hself,
          getCity_updateCity _ _ (fun x => addNeighbor x d.getOpposite ℓ.name)
            (fun x => addNeighbor_name x d.getOpposite ℓ.name), if_pos hself.symm,
          getCity_getOrAddCity, if_pos rfl, hself, hx0]
        rfl
      have h3 : ∀ k, k ≠ tgt → getCity (updateCity
          (updateCity (getOrAddCity m tgt) tgt
            (fun x => addNeighbor x d.getOpposite ℓ.name))
          ℓ.name (fun x => addNeighbor x d tgt)) k = getCity m k := by
        intro k hk
        rw [getCity_updateCity _ _ (fun x => addNeighbor x d tgt)
            (fun x => addNeighbor_name x d tgt),
          if_neg (fun he : k = ℓ.name => hk (he.trans hself.symm)),
          getCity_updateCity _ _ (fun x => addNeighbor x d.getOpposite ℓ.name)
            (fun x => addNeighbor_name x d.getOpposite ℓ.name), if_neg hk,
          getCity_getOrAddCity, if_neg hk]
      have h1n : getCity (updateCity
          (updateCity (getOrAddCity m tgt) tgt
            (fun x => addNeighbor x d.getOpposite ℓ.name))
          ℓ.name (fun x => addNeighbor x d tgt)) ℓ.name
          = some (addNeighbor (addNeighbor x0 d.getOpposite ℓ.name) d tgt) := by
        rw [getCity_updateCity _ _ (fun x => addNeighbor x d tgt)
            (fun x => addNeighbor_name x d tgt)]
        rw [if_pos rfl]
        rw [getCity_updateCity _ _ (fun x => addNeighbor x d.getOpposite ℓ.name)
            (fun x => addNeighbor_name x d.getOpposite ℓ.name)]
        rw [if_pos hself.symm]
        rw [getCity_getOrAddCity]
        rw [if_pos rfl]
        rw [hself, hx0]
        rfl
      have hTeq : ℓT = ℓ := name_inj_of_nodup L hndL hTL hmemL (hTn.trans hself)
      have hopp : ℓ.nbrs d.getOpposite = some ℓ.name := hTeq ▸ hTb
      refine ⟨?_, hknd, ?_, ?_⟩
      · intro nm
        by_cases hnm : nm = tgt
        · subst hnm
          rw [h1]
          exact ⟨fun _ => Or.inr (Or.inl hself), fun _ => ⟨_, rfl⟩⟩
        · rw [h3 nm hnm, hK1 nm]
          constructor
          · rintro (h | h | ⟨e, he, hne⟩)
            · exact Or.inl h
            · exact Or.inr (Or.inl h)
            · exact Or.inr (Or.inr ⟨e, List.mem_append_left _ he, hne⟩)
          · rintro (h | h | ⟨e, he, hne⟩)
            · exact Or.inl h
            · exact Or.inr (Or.inl h)
            · rcases List.mem_append.mp he with he1 | he2
              · exact Or.inr (Or.inr ⟨e, he1, hne⟩)
              · have hed : e = d := List.mem_singleton.mp he2
                subst hed
                rw [hcd] at hne
                cases hne
                exact absurd rfl hnm
      · intro ℓ' hℓ' x hx
        rw [h3 ℓ'.name (fun he => hPn ℓ' hℓ' (he.trans hself))] at hx
        exact hB ℓ' hℓ' x hx
      · intro x hx
        rw [h1n] at hx
        cases hx
        obtain ⟨hown1, hown2⟩ := hOwn x0 hx0
        have hslot : ∀ e : direction,
            (addNeighbor (addNeighbor x0 d.getOpposite ℓ.name) d tgt).neighbors e
            = if e = d then some tgt
              else if e = d.getOpposite then some ℓ.name else x0.neighbors e := by
          intro e
          rw [addNeighbor_neighbors, addNeighbor_neighbors]
        constructor
        · intro e he
          rw [hslot e]
          by_cases hed : e = d
          · rw [if_pos hed, hed, hcd]
          · rw [if_neg hed]
            by_cases heo : e = d.getOpposite
            · rw [if_pos heo, heo, hopp]
            · rw [if_neg heo]
              rcases List.mem_append.mp he with he1 | he2
              · exact hown1 e he1
              · exact absurd (List.mem_singleton.mp he2) hed
        · intro e t ht
          rw [hslot e] at ht
          by_cases hed : e = d
          · rw [if_pos hed] at ht
            cases ht
            rw [hed, hcd]
          · rw [if_neg hed] at ht
            by_cases heo : e = d.getOpposite
            · rw [if_pos heo] at ht
              cases ht
              rw [heo, hopp]
            · rw [if_neg heo] at ht
              exact hown2 e t ht
    · have hnl : ¬ ℓ.name = tgt := fun he => hself he.symm
      have h1 : getCity (updateCity
          (updateCity (getOrAddCity m tgt) tgt
            (fun x => addNeighbor x d.getOpposite ℓ.name))
          ℓ.name (fun x => addNeighbor x d tgt)) ℓ.name
          = some (addNeighbor x0 d tgt) := by
        rw [getCity_updateCity _ _ (fun x => addNeighbor x d tgt)
            (fun x => addNeighbor_name x d tgt), if_pos rfl,
          getCity_updateCity _ _ (fun x => addNeighbor x d.getOpposite ℓ.name)
            (fun x => addNeighbor_name x d.getOpposite ℓ.name), if_neg hnl,
          getCity_getOrAddCity, if_neg hnl, hx0]
        rfl
      have h2 : getCity (updateCity
          (updateCity (getOrAddCity m tgt) tgt
            (fun x => addNeighbor x d.getOpposite ℓ.name))
          ℓ.name (fun x => addNeighbor x d tgt)) tgt
          = some (addNeighbor ((getCity m tgt).getD (newCity tgt)) d.getOpposite ℓ.name) := by
        rw [getCity_updateCity _ _ (fun x => addNeighbor x d tgt)
            (fun x => addNeighbor_name x d tgt), if_neg hself,
          getCity_updateCity _ _ (fun x => addNeighbor x d.getOpposite ℓ.name)
            (fun x => addNeighbor_name x d.getOpposite ℓ.name), if_pos rfl,
          getCity_getOrAddCity, if_pos rfl]
        rfl
      have h3 : ∀ k, k ≠ ℓ.name → k ≠ tgt → getCity (updateCity
          (updateCity (getOrAddCity m tgt) tgt
            (fun x => addNeighbor x d.getOpposite ℓ.name))
          ℓ.name (fun x => addNeighbor x d tgt)) k = getCity m k := by
        intro k hk1 hk2
        rw [getCity_updateCity _ _ (fun x => addNeighbor x d tgt)
            (fun x => addNeighbor_name x d tgt), if_neg hk1,
          getCity_updateCity _ _ (fun x => addNeighbor x d.getOpposite ℓ.name)
            (fun x => addNeighbor_name x d.getOpposite ℓ.name), if_neg hk2,
          getCity_getOrAddCity, if_neg hk2]
      refine ⟨?_, hknd, ?_, ?_⟩
      · intro nm
        by_cases hnm1 : nm = ℓ.name
        · subst hnm1
          rw [h1]
          exact ⟨fun _ => Or.inr (Or.inl rfl), fun _ => ⟨_, rfl⟩⟩
        · by_cases hnm2 : nm = tgt
          · subst hnm2
            rw [h2]
            exact ⟨fun _ => Or.inr (Or.inr ⟨d, hdmem, hcd⟩), fun _ => ⟨_, rfl⟩⟩
          · rw [h3 nm hnm1 hnm2, hK1 nm]
            constructor
            · rintro (h | h | ⟨e, he, hne⟩)
              · exact Or.inl h
              · exact Or.inr (Or.inl h)
              · exact Or.inr (Or.inr ⟨e, List.mem_append_left _ he, hne⟩)
            · rintro (h | h | ⟨e, he, hne⟩)
              · exact Or.inl h
              · exact Or.inr (Or.inl h)
              · rcases List.mem_append.mp he with he1 | he2
                · exact Or.inr (Or.inr ⟨e, he1, hne⟩)
                · have hed : e = d := List.mem_singleton.mp he2
                  subst hed
                  rw [hcd] at hne
                  cases hne
                  exact absurd rfl hnm2
      · intro ℓ' hℓ' x hx
        by_cases hℓt : ℓ'.name = tgt
        · rw [hℓt, h2] at hx
          cases hx
          obtain ⟨y, hy⟩ : ∃ y, getCity m ℓ'.name = some y :=
            (hK1 ℓ'.name).mpr (Or.inl (Or.inl ⟨ℓ', hℓ', rfl⟩))
          have hy2 : getCity m tgt = some y := hℓt ▸ hy
          rw [hy2]
          have hTeq : ℓT = ℓ' := name_inj_of_nodup L hndL hTL (hPL ℓ' hℓ') (hTn.trans hℓt.symm)
          intro e
          rw [addNeighbor_neighbors]
          by_cases heo : e = d.getOpposite
          · rw [if_pos heo, heo, ← hTeq, hTb]
          · rw [if_neg heo]
            exact hB ℓ' hℓ' y hy e
        · rw [h3 ℓ'.name (hPn ℓ' hℓ') hℓt] at hx
          exact hB ℓ' hℓ' x hx
      · intro x hx
        rw [h1] at hx
        cases hx
        obtain ⟨hown1, hown2⟩ := hOwn x0 hx0
        constructor
        · intro e he
          rw [addNeighbor_neighbors]
          by_cases hed : e = d
          · rw [if_pos hed, hed, hcd]
          · rw [if_neg hed]
            rcases List.mem_append.mp he with he1 | he2
            · exact hown1 e he1
            · exact absurd (List.mem_singleton.mp he2) hed
        · intro e t ht
          rw [addNeighbor_neighbors] at ht
          by_cases hed : e = d
          · rw [if_pos hed] at ht
            cases ht
            rw [hed, hcd]
          · rw [if_neg hed] at ht
            exact hown2 e t ht

theorem newCity_name (nm : Str) : (newCity nm).name = nm := rfl

theorem midInv_fold (L P : List cityLine) (ℓ : cityLine) (ds done : List direction)
    (m : List city)
    (hndL : (L.map cityLine.name).Nodup) (hsym : symmetricLines L)
    (hmemL : ℓ ∈ L) (hPL : ∀ ℓ' ∈ P, ℓ' ∈ L) (hPn : ∀ ℓ' ∈ P, ℓ'.name ≠ ℓ.name)
    (hinv : midInv P ℓ done m) :
    midInv P ℓ (done ++ ds)
      (ds.foldl
        (fun acc d =>
          match ℓ.nbrs d with
          | none => acc
          | some tgt =>
            updateCity
              (updateCity (getOrAddCity acc tgt) tgt
                (fun x => addNeighbor x d.getOpposite ℓ.name))
              ℓ.name (fun x => addNeighbor x d tgt)) m) := by
  induction ds generalizing done m with
  | nil => simpa using hinv
  | cons d rest ih =>
    rw [List.foldl_cons]
    have hstep := midInv_step L P ℓ done d m hndL hsym hmemL hPL hPn hinv
    have h2 := ih (done ++ [d]) _ hstep
    rw [List.append_assoc] at h2
    simpa using h2

theorem lineInv_processLine (L P : List cityLine) (m : List city) (s : Str) (ℓ : cityLine)
    (hex : extractLine s = some ℓ)
    (hndL : (L.map cityLine.name).Nodup) (hsym : symmetricLines L)
    (hmemL : ℓ ∈ L) (hPL : ∀ ℓ' ∈ P, ℓ' ∈ L) (hPn : ∀ ℓ' ∈ P, ℓ'.name ≠ ℓ.name)
    (hinv : lineInv P m) :
    lineInv (P ++ [ℓ]) (processLine m s) := by
  obtain ⟨hK1, hK2, hB⟩ := hinv
  have hmid0 : midInv P ℓ [] (addCity m (newCity ℓ.name)) := by
    refine ⟨?_, nodup_addCity m _ hK2, ?_, ?_⟩
    · intro nm
      simp only [getCity_addCity, newCity_name]
      by_cases hnm : nm = ℓ.name
      · simp only [if_pos hnm]
        exact ⟨fun _ => Or.inr (Or.inl hnm), fun _ => ⟨_, rfl⟩⟩
      · simp only [if_neg hnm]
        rw [hK1 nm]
        constructor
        · intro h
          exact Or.inl h
        · rintro (h | h | ⟨e, he, hne⟩)
          · exact h
          · exact absurd h hnm
          · exact absurd he (List.not_mem_nil e)
    · intro ℓ' hℓ' x hx
      rw [getCity_addCity m (newCity ℓ.name) ℓ'.name, newCity_name,
        if_neg (hPn ℓ' hℓ')] at hx
      exact hB ℓ' hℓ' x hx
    · intro x hx
      rw [getCity_addCity m (newCity ℓ.name) ℓ.name, newCity_name, if_pos rfl] at hx
      cases hx
      refine ⟨fun e he => absurd he (List.not_mem_nil e), ?_⟩
      intro e t ht
      simp [newCity] at ht
  have hmidAll := midInv_fold L P ℓ dirList [] (addCity m (newCity ℓ.name))
    hndL hsym hmemL hPL hPn hmid0
  simp only [List.nil_append] at hmidAll
  obtain ⟨mK1, mK2, mB, mOwn⟩ := hmidAll
  have hproc : processLine m s = dirList.foldl
      (fun acc d =>
        match ℓ.nbrs d with
        | none => acc
        | some tgt =>
          updateCity
            (updateCity (getOrAddCity acc tgt) tgt
              (fun x => addNeighbor x d.getOpposite ℓ.name))
            ℓ.name (fun x => addNeighbor x d tgt)) (addCity m (newCity ℓ.name)) := by
    simp only [processLine, hex]
  rw [hproc]
  refine ⟨?_, mK2, ?_⟩
  · intro nm
    rw [mK1 nm]
    constructor
    · rintro (h | h | ⟨e, _, hne⟩)
      · rcases h with h | h
        · obtain ⟨ℓ', hℓ', hn⟩ := h
          exact Or.inl ⟨ℓ', List.mem_append_left _ hℓ', hn⟩
        · obtain ⟨ℓ', hℓ', e, hn⟩ := h
          exact Or.inr ⟨ℓ', List.mem_append_left _ hℓ', e, hn⟩
      · exact Or.inl ⟨ℓ, List.mem_append_right _ (List.mem_singleton_self ℓ), h.symm⟩
      · exact Or.inr ⟨ℓ, List.mem_append_right _ (List.mem_singleton_self ℓ), e, hne⟩
    · rintro (⟨ℓ', hℓ', hn⟩ | ⟨ℓ', hℓ', e, hn⟩)
      · rcases List.mem_append.mp hℓ' with hp | hq
        · exact Or.inl (Or.inl ⟨ℓ', hp, hn⟩)
        · have : ℓ' = ℓ := List.mem_singleton.mp hq
          subst this
          exact Or.inr (Or.inl hn.symm)
      · rcases List.mem_append.mp hℓ' with hp | hq
        · exact Or.inl (Or.inr ⟨ℓ', hp, e, hn⟩)
        · have : ℓ' = ℓ := List.mem_singleton.mp hq
          subst this
          exact Or.inr (Or.inr ⟨e, mem_dirList e, hn⟩)
  · intro ℓ' hℓ' x hx
    rcases List.mem_append.mp hℓ' with hp | hq
    · exact mB ℓ' hp x hx
    · have : ℓ' = ℓ := List.mem_singleton.mp hq
      subst this
      intro e
      exact (mOwn x hx).1 e (mem_dirList e)

theorem lineInv_initFold (L : List cityLine)
    (hndL : (L.map cityLine.name).Nodup) (hsym : symmetricLines L) :
    ∀ (rest : List Str) (P : List cityLine) (m : List city),
      L = P ++ rest.filterMap extractLine → lineInv P m →
      lineInv L (rest.foldl processLine m) := by
  intro rest
  induction rest with
  | nil =>
    intro P m hsplit hinv
    rw [List.filterMap_nil, List.append_nil] at hsplit
    rw [← hsplit] at hinv
    exact hinv
  | cons s rest2 ih =>
    intro P m hsplit hinv
    rw [List.foldl_cons]
    cases hex : extractLine s with
    | none =>
      have hpm : processLine m s = m := by
        simp only [processLine, hex]
      rw [hpm]
      refine ih P m ?_ hinv
      rw [hsplit, List.filterMap_cons, hex]
    | some ℓ =>
      have hsplit2 : L = P ++ (ℓ :: rest2.filterMap extractLine) := by
        rw [hsplit, List.filterMap_cons, hex]
      have hsplit3 : L = (P ++ [ℓ]) ++ rest2.filterMap extractLine := by
        rw [hsplit2, List.append_assoc]
        rfl
      have hmemL : ℓ ∈ L := by
        rw [hsplit2]
        exact List.mem_append_right _ (List.mem_cons_self _ _)
      have hPL : ∀ ℓ' ∈ P, ℓ' ∈ L := by
        intro ℓ' h
        rw [hsplit2]
        exact List.mem_append_left _ h
      have hPn : ∀ ℓ' ∈ P, ℓ'.name ≠ ℓ.name := by
        intro ℓ' h he
        rw [hsplit2, List.map_append] at hndL
        have hdis := (List.nodup_append.mp hndL).2.2
        exact hdis (List.mem_map_of_mem cityLine.name h)
          (by
            rw [he]
            exact List.mem_map_of_mem cityLine.name (List.mem_cons_self _ _))
      exact ih (P ++ [ℓ]) (processLine m s) hsplit3
        (lineInv_processLine L P m s ℓ hex hndL hsym hmemL hPL hPn hinv)

theorem cityPairs_of_lineInv (ℓ : cityLine) (x : city)
    (h : ∀ d, x.neighbors d = ℓ.nbrs d) : cityPairs x = cityLinePairs ℓ := by
  simp only [cityPairs, cityLinePairs]
  congr 1
  funext d
  rw [h d]

theorem inputPairs_fold_append (L : List cityLine) (nm : Str) :
    ∀ acc : List (direction × Str),
      L.foldl (fun acc ln => if ln.name = nm then acc ++ cityLinePairs ln else acc) acc
        = acc ++ L.foldl (fun acc ln => if ln.name = nm then acc ++ cityLinePairs ln else acc) [] := by
  induction L with
  | nil => intro acc; simp
  | cons ℓ rest ih =>
    intro acc
    simp only [List.foldl_cons]
    by_cases hn : ℓ.name = nm
    · rw [if_pos hn, if_pos hn, ih (acc ++ cityLinePairs ℓ), ih ([] ++ cityLinePairs ℓ)]
      simp
    · rw [if_neg hn, if_neg hn]
      exact ih acc

theorem inputPairs_fold_nil (rest : List cityLine) (nm : Str)
    (h : ∀ ℓ' ∈ rest, ℓ'.name ≠ nm) :
    rest.foldl (fun acc ln => if ln.name = nm then acc ++ cityLinePairs ln else acc) []
      = [] := by
  induction rest with
  | nil => rfl
  | cons ℓ0 rest2 ih =>
    simp only [List.foldl_cons, if_neg (h ℓ0 (List.mem_cons_self _ _))]
    exact ih (fun ℓ' h' => h ℓ' (List.mem_cons_of_mem _ h'))

theorem inputPairs_aux (L : List cityLine) (ℓ : cityLine)
    (hnd : (L.map cityLine.name).Nodup) (hmem : ℓ ∈ L) :
    L.foldl (fun acc ln => if ln.name = ℓ.name then acc ++ cityLinePairs ln else acc) []
      = cityLinePairs ℓ := by
  induction L with
  | nil => cases hmem
  | cons ℓ0 rest ih =>
    simp only [List.map_cons, List.nodup_cons] at hnd
    simp only [List.foldl_cons]
    rcases List.mem_cons.mp hmem with rfl | hr
    · rw [if_pos rfl, List.nil_append, inputPairs_fold_append rest ℓ.name,
        inputPairs_fold_nil rest ℓ.name
          (fun ℓ' h' he => hnd.1 (he ▸ List.mem_map_of_mem cityLine.name h')),
        List.append_nil]
    · have hne : ℓ0.name ≠ ℓ.name :=
        fun he => hnd.1 (he ▸ List.mem_map_of_mem cityLine.name hr)
      rw [if_neg hne]
      exact ih hnd.2 hr

theorem inputPairs_of_nodup (lines : List Str) (ℓ : cityLine)
    (hnd : ((lines.filterMap extractLine).map cityLine.name).Nodup)
    (hmem : ℓ ∈ lines.filterMap extractLine) :
    inputPairs lines ℓ.name = cityLinePairs ℓ :=
  inputPairs_aux (lines.filterMap extractLine) ℓ hnd hmem
/-- Claim C6 (amended): for a textual map whose extracted lines carry
pairwise distinct names and are adjacency-symmetric (every `(d, B)` pair on
line `A` is matched by `(opposite d, A)` on line `B`), parsing with `InitMap`
and serializing immediately reproduces, for each location, exactly the
`(direction, neighborName)` pairs the input gave that location, and the
output locations are exactly the input locations.  On asymmetric inputs the
reverse links `InitMap` installs give some location a pair the input never
gave it. -/
theorem C6_roundtrip_symmetric (lines : List Str)
    (h1 : ((lines.filterMap extractLine).map cityLine.name).Nodup)
    (h2 : symmetricLines (lines.filterMap extractLine)) :
    (∀ nm : Str, (∃ x, getCity (InitMap lines) nm = some x) ↔
      ∃ ℓ ∈ lines.filterMap extractLine, ℓ.name = nm) ∧
    (∀ ℓ ∈ lines.filterMap extractLine, ∀ x, getCity (InitMap lines) ℓ.name = some x →
      cityPairs x = inputPairs lines ℓ.name) ∧
    (∀ p ∈ WriteOutput (InitMap lines), p.2 = inputPairs lines p.1) := by
  have hbase : lineInv [] ([] : List city) := by
    refine ⟨?_, by simp, ?_⟩
    · intro nm
      constructor
      · rintro ⟨x, hx⟩
        exact Option.noConfusion hx
      · rintro (⟨ℓ, hℓ, _⟩ | ⟨ℓ, hℓ, _, _⟩) <;> exact absurd hℓ (List.not_mem_nil ℓ)
    · intro ℓ hℓ
      exact absurd hℓ (List.not_mem_nil ℓ)
  obtain ⟨fK1, fK2, fB⟩ :=
    lineInv_initFold (lines.filterMap extractLine) h1 h2 lines [] [] rfl hbase
  refine ⟨?_, ?_, ?_⟩
  · intro nm
    rw [show InitMap lines = lines.foldl processLine [] from rfl, fK1 nm]
    constructor
    · rintro (⟨ℓ, hℓ, hn⟩ | ⟨ℓ, hℓ, e, hn⟩)
      · exact ⟨ℓ, hℓ, hn⟩
      · obtain ⟨ℓ', hℓ', hn', _⟩ := h2 ℓ hℓ e nm hn
        exact ⟨ℓ', hℓ', hn'⟩
    · rintro ⟨ℓ, hℓ, hn⟩
      exact Or.inl ⟨ℓ, hℓ, hn⟩
  · intro ℓ hℓ x hx
    rw [inputPairs_of_nodup lines ℓ h1 hℓ]
    exact cityPairs_of_lineInv ℓ x (fun d => fB ℓ hℓ x hx d)
  · intro p hp
    simp only [WriteOutput, List.mem_map] at hp
    obtain ⟨x, hxm, rfl⟩ := hp
    have hlook : getCity (lines.foldl processLine []) x.name = some x :=
      getCity_mem_self _ x fK2 hxm
    obtain ⟨ℓ, hℓ, hn⟩ : ∃ ℓ ∈ lines.filterMap extractLine, ℓ.name = x.name := by
      rcases (fK1 x.name).mp ⟨x, hlook⟩ with ⟨ℓ, hℓ, hn⟩ | ⟨ℓ, hℓ, e, hn⟩
      · exact ⟨ℓ, hℓ, hn⟩
      · obtain ⟨ℓ', hℓ', hn', _⟩ := h2 ℓ hℓ e x.name hn
        exact ⟨ℓ', hℓ', hn'⟩
    have hpx : cityPairs x = cityLinePairs ℓ :=
      cityPairs_of_lineInv ℓ x (fun d => fB ℓ hℓ x (hn ▸ hlook) d)
    show cityPairs x = inputPairs lines x.name
    rw [hpx, ← hn, inputPairs_of_nodup lines ℓ h1 hℓ]

theorem C6_roundtrip_symmetric_witness :
    ((['F', 'o', 'o'] : Str), [(direction.north, (['B', 'a', 'r'] : Str))])
        ∈ WriteOutput (InitMap demoLines) ∧
    [(direction.north, (['B', 'a', 'r'] : Str))] = inputPairs demoLines ['F', 'o', 'o'] := by
  constructor
  · decide
  · exact (C6_roundtrip_symmetric demoLines (by decide) (by decide)).2.2
      ((['F', 'o', 'o'] : Str), [(direction.north, (['B', 'a', 'r'] : Str))]) (by decide)

theorem C9_move_cap_witness :
    (runAlienLoop 0 (List.replicate maxMoveCount IterOutcome.moved)).1 = maxMoveCount ∧
    (runAlienLoop 0 (List.replicate maxMoveCount IterOutcome.moved)).2.1 = true := by
  have h1 : (runAlienLoop 0 (List.replicate maxMoveCount IterOutcome.moved)).1 =
      maxMoveCount := runAlienLoop_replicate_moved maxMoveCount 0 (by omega) (by norm_num [maxMoveCount])
  exact ⟨h1, (C9_move_cap (List.replicate maxMoveCount IterOutcome.moved)).2.2.1 h1⟩

end AlienInvasion
